import Mathlib

/-!
Verification of the csx730-vfs virtual file system against its specification.

The repository ships only the public header `src/csx730_vfs.h` (the API
declarations and their documentation), a Makefile and a README; the
implementation file `csx730_vfs.c` named by the Makefile is not present.
Every definition below is therefore modelled from the specification
(spec.md sections 3, 4 and 7), which describes the data model, the layered
contracts (Block Store, Block Allocator, Inode Table, Directory/Data Layer,
Path Resolver, VFS User-Space API) and the error taxonomy.

Modelling conventions:
* A path is an ordered list of name components (spec section 6: the split
  into components happens at the API boundary).
* The disk image path handed to `init` is host-OS environment and is not
  modelled; `init` takes only the block count.
* Bytes are `Nat`; machine-level truncation never matters for the claims.
* Per spec section 9, an inode is a tagged variant: file payloads are raw
  bytes, directory payloads are (name, inode index) entry lists.
* Block-store read/write counters are modelled abstractly: each operation
  that persists the free-block map bumps the write counter, each metadata
  query bumps the read counter.
-/

/-- Modelled from the spec: fixed block size of the disk image (the spec
fixes no concrete value, only that blocks are fixed-size). -/
def blockSize : Nat := 16

/-- Modelled from the spec: size of one fixed-format directory entry record
inside a directory's data blocks. -/
def entrySize : Nat := 4

/-- Modelled from the spec: number of reserved control blocks at the start
of the image (block 0 holds the control metadata). -/
def reservedBlocks : Nat := 1

/-- Modelled from the spec: fixed capacity of the inode table. -/
def numInodes : Nat := 4

/-- Modelled from the spec: fixed capacity of the open-file-descriptor table. -/
def numFds : Nat := 4

def emptyStr : String := ""

def defaultEntry : String × Nat := (emptyStr, 0)

/-- Modelled from the spec (section 9): the payload of an inode is a tagged
variant, raw bytes for files and (name, inode index) entry records for
directories. -/
inductive Payload where
  | file (data : List Nat)
  | dir (entries : List (String × Nat))
deriving DecidableEq

/-- Modelled from the spec (section 3): an inode records the type (via the
payload tag), the size in bytes, and the ordered list of data-block
indices it owns. -/
structure Inode where
  size : Nat
  blocks : List Nat
  payload : Payload
deriving DecidableEq

def Inode.isDir (i : Inode) : Bool :=
  match i.payload with
  | Payload.dir _ => true
  | Payload.file _ => false

/-- Modelled from the spec (section 3): an open-file-descriptor entry holds
the inode index, the current byte offset, and the directory-traversal
cursor. -/
structure Desc where
  inodeIdx : Nat
  offset : Nat
  cursor : Nat
deriving DecidableEq

/-- Modelled from the spec (sections 3 and 5): the whole file-system state —
total block count, the free-block map (one Bool per block, true = free),
the inode table (fixed capacity, `none` = slot unused), the process-wide
open-file table, and the block-store read/write counters. -/
structure VFSState where
  numBlocks : Nat
  freeMap : List Bool
  inodes : List (Option Inode)
  fdTable : List (Option Desc)
  readCount : Nat
  writeCount : Nat
deriving DecidableEq

/-- Index of the first list element satisfying `p`. -/
def firstIdx (p : α → Bool) : List α → Option Nat
  | [] => none
  | a :: l => if p a then some 0 else (firstIdx p l).map (· + 1)

/-- First-match lookup of a name in a directory's entry records. -/
def findEntry : List (String × Nat) → String → Option Nat
  | [], _ => none
  | (n, i) :: rest, c => if n = c then some i else findEntry rest c

/-- Number of free blocks recorded in a free-block map. -/
def countTrue (l : List Bool) : Nat := l.count true

/-- Number of blocks needed to address `n` bytes. -/
def blocksForBytes (n : Nat) : Nat := (n + blockSize - 1) / blockSize

/-- Number of blocks needed for a directory holding `n` entry records. -/
def dirBlocksFor (n : Nat) : Nat := blocksForBytes (n * entrySize)

def getInode (st : VFSState) (j : Nat) : Option Inode := st.inodes.getD j none

def getDesc (st : VFSState) (fd : Nat) : Option Desc := st.fdTable.getD fd none

/-- Modelled from the spec (section 4.2, Block Allocator): `alloc` scans the
free-block map for the lowest-indexed free block, marks it allocated,
persists the map (one block write), and returns its index; it returns
`none` (DiskFull) when no free block exists. -/
def allocBlock (st : VFSState) : Option (Nat × VFSState) :=
  match firstIdx (fun b => b) st.freeMap with
  | none => none
  | some i =>
      some (i, { st with freeMap := st.freeMap.set i false,
                         writeCount := st.writeCount + 1 })

/-- Modelled from the spec (section 4.2, Block Allocator): `free` marks a
block free and persists the map; it fails if the block is already free or
reserved. -/
def freeBlock (st : VFSState) (b : Nat) : VFSState × Bool :=
  if b < reservedBlocks then (st, false)
  else if st.freeMap.getD b false then (st, false)
  else ({ st with freeMap := st.freeMap.set b true,
                  writeCount := st.writeCount + 1 }, true)

/-- Allocate `n` blocks one at a time, first-fit; stops early on DiskFull.
Returns the new state, the allocated indices in order, and whether all `n`
allocations succeeded. -/
def allocMany : VFSState → Nat → VFSState × List Nat × Bool
  | st, 0 => (st, [], true)
  | st, n + 1 =>
    match allocBlock st with
    | none => (st, [], false)
    | some (i, st') =>
      match allocMany st' n with
      | (st'', rest, ok) => (st'', i :: rest, ok)

/-- Free every block in the list via the Block Allocator (used by
`free_inode`; individual already-free failures are not propagated, matching
the spec's `free_inode` contract which has no per-block failure mode). -/
def freeAll : VFSState → List Nat → VFSState
  | st, [] => st
  | st, b :: rest => freeAll (freeBlock st b).1 rest

/-- Mark every listed block as allocated in a free-block map. -/
def markAlloc : List Bool → List Nat → List Bool
  | fm, [] => fm
  | fm, b :: rest => markAlloc (fm.set b false) rest

/-- Mark every listed block as free in a free-block map. -/
def markFree : List Bool → List Nat → List Bool
  | fm, [] => fm
  | fm, b :: rest => markFree (fm.set b true) rest

/-- Modelled from the spec (section 4.5, Path Resolver): walk a component
list from the inode `cur`, following each component as a directory lookup;
fails (NotFound) if any component is missing or an intermediate is not a
directory. -/
def resolveFrom (st : VFSState) : Nat → List String → Option Nat
  | cur, [] => some cur
  | cur, c :: rest =>
    match getInode st cur with
    | some ino =>
      match ino.payload with
      | Payload.dir es =>
        match findEntry es c with
        | some nxt => resolveFrom st nxt rest
        | none => none
      | Payload.file _ => none
    | none => none

/-- Resolve a path from the root inode (index 0). -/
def resolve (st : VFSState) (path : List String) : Option Nat :=
  resolveFrom st 0 path

/-- Modelled from the spec (section 4.5): `resolve_parent` resolves all but
the last component to the containing directory and returns it with the
final name; fails on the empty path (the root has no parent). -/
def resolveParent (st : VFSState) (path : List String) : Option (Nat × String) :=
  match path with
  | [] => none
  | _ :: _ =>
    match resolveFrom st 0 path.dropLast with
    | some p => some (p, path.getLastD emptyStr)
    | none => none

/-- A freshly allocated inode: size 0, empty block list (spec section 4.3). -/
def newInode (d : Bool) : Inode :=
  { size := 0, blocks := [], payload := if d then Payload.dir [] else Payload.file [] }

/-- State produced by a successful `creat`: the parent gains the new entry
(appended at the next slot) together with any blocks allocated for it, and
the fresh inode occupies slot `s`. -/
def creatApply (st1 : VFSState) (p : Nat) (pino : Inode) (es : List (String × Nat))
    (name : String) (s : Nat) (bs : List Nat) (d : Bool) : VFSState :=
  let pino' : Inode :=
    { pino with payload := Payload.dir (es ++ [(name, s)]),
                blocks := pino.blocks ++ bs,
                size := (es.length + 1) * entrySize }
  { st1 with inodes := (st1.inodes.set p (some pino')).set s (some (newInode d)) }

/-- State produced by a successful `unlink`: the target's data blocks are
freed via the Block Allocator, the parent's entry list is compacted (all
records named `name` removed), and the target inode slot is marked unused
(spec sections 4.3, 4.4 and 4.6). -/
def unlinkApply (st : VFSState) (p : Nat) (pino : Inode) (es : List (String × Nat))
    (name : String) (c : Nat) (cino : Inode) : VFSState :=
  let st1 := freeAll st cino.blocks
  let es' := es.filter (fun e => !(e.1 == name))
  let pino' : Inode :=
    { pino with payload := Payload.dir es', size := es'.length * entrySize }
  { st1 with inodes := (st1.inodes.set p (some pino')).set c none }

/-- The inode produced by `write_at` on a file inode: the freshly allocated
blocks are appended to the block list (even when the write itself is empty,
matching the no-rollback policy); when bytes fit, the data is overwritten
at the offset (zero-padding any gap past the old end) and the size extends
to cover the written range. -/
def writeInode (ino : Inode) (data : List Nat) (off : Nat) (bytes : List Nat)
    (bs : List Nat) : Inode :=
  let blocks' := ino.blocks ++ bs
  let w := min bytes.length (blocks'.length * blockSize - off)
  if w = 0 then { ino with blocks := blocks' }
  else
    let padded := data ++ List.replicate (off - data.length) 0
    { ino with blocks := blocks',
               size := max ino.size (off + w),
               payload := Payload.file
                 (padded.take off ++ bytes.take w ++ padded.drop (off + w)) }

/-- Modelled from the spec (section 4.4, Directory/Data Layer): `write_at`
allocates any block not yet covered by the inode's block list (failing
allocations leave the partial write in place, not rolled back), writes the
bytes that fit in the covered range, extends the size, and reports the
bytes written together with whether allocation failed. -/
def write_at (st : VFSState) (idx : Nat) (off : Nat) (bytes : List Nat) :
    VFSState × Nat × Bool :=
  match getInode st idx with
  | none => (st, 0, false)
  | some ino =>
    match ino.payload with
    | Payload.dir _ => (st, 0, false)
    | Payload.file data =>
      let toAlloc := if bytes.length = 0 then 0
                     else blocksForBytes (off + bytes.length) - ino.blocks.length
      match allocMany st toAlloc with
      | (st1, bs, ok) =>
        let w := min bytes.length ((ino.blocks ++ bs).length * blockSize - off)
        ({ st1 with inodes := st1.inodes.set idx (some (writeInode ino data off bytes bs)) },
          w, !ok)

/-- Initial free-block map covering `k` blocks starting at index `i`:
reserved control blocks are marked non-free, all others free. -/
def mkFreeMap : Nat → Nat → List Bool
  | _, 0 => []
  | i, k + 1 => decide (reservedBlocks ≤ i) :: mkFreeMap (i + 1) k

/-- The root directory inode pre-existing after `init` (spec section 4.6). -/
def rootInode : Inode := { size := 0, blocks := [], payload := Payload.dir [] }

/-- The state set up by a successful `init`: `size` blocks with the control
block reserved and all others free, the root directory in inode slot 0,
the rest of the inode table unused, the descriptor table empty, and the
I/O counters zeroed. -/
def initState (size : Nat) : VFSState :=
  { numBlocks := size,
    freeMap := mkFreeMap 0 size,
    inodes := some rootInode :: List.replicate (numInodes - 1) none,
    fdTable := List.replicate numFds none,
    readCount := 0,
    writeCount := 0 }

/-- Modelled from the spec (section 4.1): `csx730_vfs_init` sets up a disk
image of `size` blocks; it fails when the image cannot even hold the
reserved control block. The host-OS image path is environmental and not
modelled. -/
def csx730_vfs_init (size : Nat) : Option VFSState :=
  if reservedBlocks ≤ size then some (initState size) else none

/-- Modelled from the spec (section 4.6): `creat` resolves the parent,
fails (AlreadyExists) if the final name already exists there, otherwise
allocates an inode of the requested type and adds a directory entry in the
parent (allocating directory blocks as needed; DiskFull or a full inode
table fail the call and leave the state unchanged). -/
def csx730_creat (st : VFSState) (path : List String) (d : Bool) : Bool × VFSState :=
  match resolveParent st path with
  | none => (false, st)
  | some (p, name) =>
    match getInode st p with
    | none => (false, st)
    | some pino =>
      match pino.payload with
      | Payload.file _ => (false, st)
      | Payload.dir es =>
        match findEntry es name with
        | some _ => (false, st)
        | none =>
          match firstIdx Option.isNone st.inodes with
          | none => (false, st)
          | some s =>
            match allocMany st (dirBlocksFor (es.length + 1) - pino.blocks.length) with
            | (st1, bs, ok) =>
              if ok then (true, creatApply st1 p pino es name s bs d)
              else (false, st)

/-- Modelled from the spec (section 4.6): `open` resolves the path to an
existing, in-use inode (NotFound otherwise, per the section 7 taxonomy)
and allocates a descriptor with offset 0 and the traversal cursor reset. -/
def csx730_open (st : VFSState) (path : List String) : Option Nat × VFSState :=
  match resolve st path with
  | none => (none, st)
  | some c =>
    match getInode st c with
    | none => (none, st)
    | some _ =>
      match firstIdx Option.isNone st.fdTable with
      | none => (none, st)
      | some fd =>
        let d : Desc := { inodeIdx := c, offset := 0, cursor := 0 }
        (some fd, { st with fdTable := st.fdTable.set fd (some d),
                            readCount := st.readCount + 1 })

/-- Modelled from the spec (section 4.6): `close` fails if the descriptor is
not currently open, otherwise releases the slot for reuse. -/
def csx730_close (st : VFSState) (fd : Nat) : Bool × VFSState :=
  match getDesc st fd with
  | none => (false, st)
  | some _ => (true, { st with fdTable := st.fdTable.set fd none })

/-- Modelled from the spec (section 4.6): `seek` fails if the descriptor is
not open and otherwise sets its byte offset, with no upper-bound clamp. -/
def csx730_seek (st : VFSState) (fd : Nat) (off : Nat) : Bool × VFSState :=
  match getDesc st fd with
  | none => (false, st)
  | some d =>
    (true, { st with fdTable := st.fdTable.set fd (some { d with offset := off }) })

/-- Modelled from the spec (sections 4.4 and 4.6): `read` requires the
descriptor to resolve to an open file; it reads at the current offset
(returning zero bytes at or past end-of-file, never fabricating data) and
advances the offset by the number of bytes actually returned. -/
def csx730_read (st : VFSState) (fd : Nat) (len : Nat) : Option (List Nat) × VFSState :=
  match getDesc st fd with
  | none => (none, st)
  | some d =>
    match getInode st d.inodeIdx with
    | none => (none, st)
    | some ino =>
      match ino.payload with
      | Payload.dir _ => (none, st)
      | Payload.file data =>
        let bytes := if ino.size ≤ d.offset then []
                     else (data.drop d.offset).take (min len (ino.size - d.offset))
        let d' : Desc := { d with offset := d.offset + bytes.length }
        (some bytes,
          { st with fdTable := st.fdTable.set fd (some d'),
                    readCount := st.readCount + 1 })

/-- Modelled from the spec (section 4.6): `write` fails if the descriptor is
not open or refers to a directory; it delegates to `write_at` at the
current offset, advances the offset by the bytes written, and returns -1
(here `none`) exactly on an allocation failure with zero bytes written. -/
def csx730_write (st : VFSState) (fd : Nat) (bytes : List Nat) : Option Nat × VFSState :=
  match getDesc st fd with
  | none => (none, st)
  | some d =>
    match getInode st d.inodeIdx with
    | none => (none, st)
    | some ino =>
      match ino.payload with
      | Payload.dir _ => (none, st)
      | Payload.file _ =>
        match write_at st d.inodeIdx d.offset bytes with
        | (st1, w, allocFailed) =>
          if allocFailed && w == 0 then (none, st1)
          else
            let d' : Desc := { d with offset := d.offset + w }
            (some w, { st1 with fdTable := st1.fdTable.set fd (some d') })

/-- Modelled from the spec (section 4.6): `unlink` resolves parent and
target, rejects non-empty directories (DirectoryNotEmpty) with no state
change, and otherwise removes the parent's entry and frees the target
inode and its blocks. -/
def csx730_unlink (st : VFSState) (path : List String) : Bool × VFSState :=
  match resolveParent st path with
  | none => (false, st)
  | some (p, name) =>
    match getInode st p with
    | none => (false, st)
    | some pino =>
      match pino.payload with
      | Payload.file _ => (false, st)
      | Payload.dir es =>
        match findEntry es name with
        | none => (false, st)
        | some c =>
          match getInode st c with
          | none => (false, st)
          | some cino =>
            match cino.payload with
            | Payload.file _ => (true, unlinkApply st p pino es name c cino)
            | Payload.dir ces =>
              match ces with
              | [] => (true, unlinkApply st p pino es name c cino)
              | _ :: _ => (false, st)

/-- Modelled from the spec (section 4.6): `stat` resolves the path and
copies the inode metadata out; it fails (NotFound) if the path does not
resolve to an in-use inode. Resolution reads metadata blocks, counted by
the Block Store read counter. -/
def csx730_stat (st : VFSState) (path : List String) : Option Inode × VFSState :=
  match resolve st path with
  | none => (none, st)
  | some c =>
    match getInode st c with
    | none => (none, st)
    | some ino => (some ino, { st with readCount := st.readCount + 1 })

/-- Modelled from the spec (section 4.6): `fstat` copies the metadata of the
inode an open descriptor refers to; it fails if the descriptor is not open
or its inode is no longer in use. -/
def csx730_fstat (st : VFSState) (fd : Nat) : Option Inode × VFSState :=
  match getDesc st fd with
  | none => (none, st)
  | some d =>
    match getInode st d.inodeIdx with
    | none => (none, st)
    | some ino => (some ino, { st with readCount := st.readCount + 1 })

/-- Modelled from the spec (section 4.6): `stat_child` requires an open
directory descriptor, resets its traversal cursor to the directory's first
entry and stats that child (EndOfDirectory when the directory is empty). -/
def csx730_stat_child (st : VFSState) (fd : Nat) : Option Inode × VFSState :=
  match getDesc st fd with
  | none => (none, st)
  | some d =>
    match getInode st d.inodeIdx with
    | none => (none, st)
    | some ino =>
      match ino.payload with
      | Payload.file _ => (none, st)
      | Payload.dir es =>
        match es with
        | [] => (none, st)
        | (_, c0) :: _ =>
          match getInode st c0 with
          | none => (none, st)
          | some cino =>
            (some cino,
              { st with fdTable := st.fdTable.set fd (some { d with cursor := 0 }),
                        readCount := st.readCount + 1 })

/-- Modelled from the spec (section 4.6): `stat_next` requires an open
directory descriptor, stats the entry at the current traversal cursor and
advances the cursor; it fails (EndOfDirectory) once entries are
exhausted. -/
def csx730_stat_next (st : VFSState) (fd : Nat) : Option Inode × VFSState :=
  match getDesc st fd with
  | none => (none, st)
  | some d =>
    match getInode st d.inodeIdx with
    | none => (none, st)
    | some ino =>
      match ino.payload with
      | Payload.file _ => (none, st)
      | Payload.dir es =>
        match es[d.cursor]? with
        | none => (none, st)
        | some e =>
          match getInode st e.2 with
          | none => (none, st)
          | some cino =>
            let d' : Desc := { d with cursor := d.cursor + 1 }
            (some cino,
              { st with fdTable := st.fdTable.set fd (some d'),
                        readCount := st.readCount + 1 })

/-- Modelled from the spec (sections 4.7 and 6): the statistics front end
only reads the two monotone Block Store counters; rendering is external. -/
def csx730_pstats (st : VFSState) : (Nat × Nat) × VFSState :=
  ((st.readCount, st.writeCount), st)

/-- Run `csx730_stat_next` a given number of times, collecting each call's
result in order. -/
def statNextSeq : VFSState → Nat → Nat → List (Option Inode) × VFSState
  | st, _, 0 => ([], st)
  | st, fd, n + 1 =>
    match csx730_stat_next st fd with
    | (r, st') =>
      match statNextSeq st' fd n with
      | (rs, st'') => (r :: rs, st'')

/-- A descriptor counts as open when it is present and resolves to an
in-use inode (spec section 7: NotFound covers an fd that does not resolve
to an existing, in-use entity). -/
def fdOpenB (st : VFSState) (fd : Nat) : Bool :=
  match getDesc st fd with
  | none => false
  | some d => (getInode st d.inodeIdx).isSome

/-- Whether an open descriptor refers to a directory. -/
def fdIsDir (st : VFSState) (fd : Nat) : Bool :=
  match getDesc st fd with
  | none => false
  | some d =>
    match getInode st d.inodeIdx with
    | none => false
    | some ino => ino.isDir

/-- Multiplicity of block `b` in the block list of one inode-table slot. -/
def refsIn (o : Option Inode) (b : Nat) : Nat :=
  match o with
  | none => 0
  | some ino => ino.blocks.count b

/-- Total multiplicity of block `b` across every inode's block list. -/
def blockRefs : List (Option Inode) → Nat → Nat
  | [], _ => 0
  | o :: l, b => refsIn o b + blockRefs l b

/-- The block-consistency property of spec sections 3 and 8: every block is
in exactly one of the states free, allocated-to-exactly-one-inode, or
reserved-control, and no in-use inode's block list refers to a block that
is not allocated to it. -/
def blocksConsistent (st : VFSState) : Prop :=
  st.freeMap.length = st.numBlocks ∧
  (∀ b, b < reservedBlocks →
      st.freeMap.getD b false = false ∧ blockRefs st.inodes b = 0) ∧
  (∀ b, reservedBlocks ≤ b → b < st.numBlocks →
      (st.freeMap.getD b false = true ∧ blockRefs st.inodes b = 0) ∨
      (st.freeMap.getD b false = false ∧ blockRefs st.inodes b = 1)) ∧
  (∀ j ino, st.inodes.getD j none = some ino → ∀ b ∈ ino.blocks,
      reservedBlocks ≤ b ∧ b < st.numBlocks ∧
      st.freeMap.getD b false = false ∧ blockRefs st.inodes b = 1)

/-- Core inductive invariant: the first three clauses of
`blocksConsistent` plus in-range block lists; the remaining clauses are
derivable. -/
def invCore (st : VFSState) : Prop :=
  st.freeMap.length = st.numBlocks ∧
  (∀ b, b < reservedBlocks →
      st.freeMap.getD b false = false ∧ blockRefs st.inodes b = 0) ∧
  (∀ b, reservedBlocks ≤ b → b < st.numBlocks →
      (st.freeMap.getD b false = true ∧ blockRefs st.inodes b = 0) ∨
      (st.freeMap.getD b false = false ∧ blockRefs st.inodes b = 1)) ∧
  (∀ j ino, st.inodes.getD j none = some ino → ∀ b ∈ ino.blocks, b < st.numBlocks)

/-- States reachable from a successfully initialized file system by any
sequence of API operations, successes and failures alike. -/
inductive Reachable : VFSState → Prop where
  | init : ∀ n st, csx730_vfs_init n = some st → Reachable st
  | creatStep : ∀ st path d, Reachable st → Reachable (csx730_creat st path d).2
  | openStep : ∀ st path, Reachable st → Reachable (csx730_open st path).2
  | closeStep : ∀ st fd, Reachable st → Reachable (csx730_close st fd).2
  | seekStep : ∀ st fd off, Reachable st → Reachable (csx730_seek st fd off).2
  | readStep : ∀ st fd len, Reachable st → Reachable (csx730_read st fd len).2
  | writeStep : ∀ st fd bytes, Reachable st → Reachable (csx730_write st fd bytes).2
  | unlinkStep : ∀ st path, Reachable st → Reachable (csx730_unlink st path).2
  | statStep : ∀ st path, Reachable st → Reachable (csx730_stat st path).2
  | fstatStep : ∀ st fd, Reachable st → Reachable (csx730_fstat st fd).2
  | statChildStep : ∀ st fd, Reachable st → Reachable (csx730_stat_child st fd).2
  | statNextStep : ∀ st fd, Reachable st → Reachable (csx730_stat_next st fd).2
  | pstatsStep : ∀ st, Reachable st → Reachable (csx730_pstats st).2

def strA : String := "a"
def strB : String := "b"
def strF : String := "f"

/-- Example: freshly initialized 8-block file system. -/
def eg0 : VFSState := initState 8

/-- Example: after creating directory `/a`. -/
def eg1 : VFSState := (csx730_creat eg0 [strA] true).2

/-- Example: after additionally creating file `/a/b`. -/
def eg2 : VFSState := (csx730_creat eg1 [strA, strB] false).2

/-- Example: `/a/b` opened on descriptor 0. -/
def eg3 : VFSState := (csx730_open eg2 [strA, strB]).2

/-- Example: after writing the bytes of `hello` to `/a/b`. -/
def eg4 : VFSState := (csx730_write eg3 0 [104, 101, 108, 108, 111]).2

/-- Example: directory `/a` opened (descriptor 1) in the written state. -/
def eg5 : VFSState := (csx730_open eg4 [strA]).2

/-- Example: the state after allocating one block in the fresh file system. -/
def eg0a : VFSState :=
  { eg0 with freeMap := eg0.freeMap.set 1 false, writeCount := eg0.writeCount + 1 }

/-- Example: the state after unlinking the file `/a/b` from the written state. -/
def egU : VFSState := (csx730_unlink eg4 [strA, strB]).2

/-! ## Basic list lemmas -/

theorem getD_set_eq {α : Type _} : ∀ (l : List α) (i : Nat) (a d : α), i < l.length →
    (l.set i a).getD i d = a := by
  intro l
  induction l with
  | nil => intro i a d h; simp at h
  | cons x xs ih =>
    intro i a d h
    cases i with
    | zero => rfl
    | succ n => simpa [List.getD_cons_succ] using ih n a d (by simpa using h)

theorem getD_set_ne {α : Type _} : ∀ (l : List α) (i j : Nat) (a d : α), i ≠ j →
    (l.set i a).getD j d = l.getD j d := by
  intro l
  induction l with
  | nil => intro i j a d _; rfl
  | cons x xs ih =>
    intro i j a d h
    cases i with
    | zero =>
      cases j with
      | zero => exact absurd rfl h
      | succ m => rfl
    | succ n =>
      cases j with
      | zero => rfl
      | succ m => simpa [List.getD_cons_succ] using ih n m a d (fun he => h (by omega))

theorem getD_none_of_le {α : Type _} : ∀ (l : List (Option α)) (j : Nat), l.length ≤ j →
    l.getD j none = none := by
  intro l
  induction l with
  | nil => intro j _; rfl
  | cons x xs ih =>
    intro j h
    cases j with
    | zero => simp at h
    | succ m => simpa [List.getD_cons_succ] using ih m (by simpa using h)

theorem lt_of_getD_some {α : Type _} (l : List (Option α)) (j : Nat) (x : α)
    (h : l.getD j none = some x) : j < l.length := by
  by_contra hc
  rw [getD_none_of_le l j (by omega)] at h
  exact Option.noConfusion h

theorem length_set_eq {α : Type _} (l : List α) (i : Nat) (a : α) :
    (l.set i a).length = l.length := by
  simp

/-! ## firstIdx lemmas -/

theorem firstIdx_some_lt {α : Type _} (p : α → Bool) :
    ∀ (l : List α) (i : Nat), firstIdx p l = some i → i < l.length := by
  intro l
  induction l with
  | nil => intro i h; simp [firstIdx] at h
  | cons x xs ih =>
    intro i h
    by_cases hx : p x
    · simp [firstIdx, hx] at h
      simp only [List.length_cons]
      omega
    · simp [firstIdx, hx] at h
      obtain ⟨j, hj, rfl⟩ := h
      have := ih j hj
      simpa using Nat.succ_lt_succ this

theorem firstIdx_some_getD {α : Type _} (p : α → Bool) (d : α) :
    ∀ (l : List α) (i : Nat), firstIdx p l = some i → p (l.getD i d) = true := by
  intro l
  induction l with
  | nil => intro i h; simp [firstIdx] at h
  | cons x xs ih =>
    intro i h
    by_cases hx : p x
    · simp [firstIdx, hx] at h
      subst h
      simpa using hx
    · simp [firstIdx, hx] at h
      obtain ⟨j, hj, rfl⟩ := h
      simpa [List.getD_cons_succ] using ih j hj

theorem firstIdx_some_before {α : Type _} (p : α → Bool) (d : α) :
    ∀ (l : List α) (i : Nat), firstIdx p l = some i →
      ∀ j, j < i → p (l.getD j d) = false := by
  intro l
  induction l with
  | nil => intro i h; simp [firstIdx] at h
  | cons x xs ih =>
    intro i h j hj
    by_cases hx : p x
    · simp [firstIdx, hx] at h
      omega
    · simp [firstIdx, hx] at h
      obtain ⟨k, hk, rfl⟩ := h
      cases j with
      | zero => simpa using hx
      | succ m => simpa [List.getD_cons_succ] using ih k hk m (by omega)

theorem firstIdx_none {α : Type _} (p : α → Bool) (d : α) :
    ∀ (l : List α), firstIdx p l = none →
      ∀ j, j < l.length → p (l.getD j d) = false := by
  intro l
  induction l with
  | nil => intro _ j hj; simp at hj
  | cons x xs ih =>
    intro h j hj
    by_cases hx : p x
    · simp [firstIdx, hx] at h
    · simp [firstIdx, hx] at h
      cases j with
      | zero => simpa using hx
      | succ m => simpa [List.getD_cons_succ] using ih h m (by simpa using hj)

/-! ## findEntry lemmas -/

theorem findEntry_append_left : ∀ (es l : List (String × Nat)) (c : String) (v : Nat),
    findEntry es c = some v → findEntry (es ++ l) c = some v := by
  intro es
  induction es with
  | nil => intro l c v h; simp [findEntry] at h
  | cons e rest ih =>
    intro l c v h
    obtain ⟨n, i⟩ := e
    by_cases hn : n = c
    · simpa [findEntry, hn] using by simpa [findEntry, hn] using h
    · simpa [findEntry, hn] using ih l c v (by simpa [findEntry, hn] using h)

theorem findEntry_append_self : ∀ (es : List (String × Nat)) (name : String) (s : Nat),
    findEntry es name = none → findEntry (es ++ [(name, s)]) name = some s := by
  intro es
  induction es with
  | nil => intro name s _; simp [findEntry]
  | cons e rest ih =>
    intro name s h
    obtain ⟨n, i⟩ := e
    by_cases hn : n = name
    · simp [findEntry, hn] at h
    · simpa [findEntry, hn] using ih name s (by simpa [findEntry, hn] using h)

theorem findEntry_filter_self : ∀ (es : List (String × Nat)) (name : String),
    findEntry (es.filter (fun e => !(e.1 == name))) name = none := by
  intro es
  induction es with
  | nil => intro name; rfl
  | cons e rest ih =>
    intro name
    obtain ⟨n, i⟩ := e
    by_cases hn : n = name
    · simpa [hn] using ih name
    · have : (n == name) = false := by simpa using hn
      simp [this, findEntry, hn]
      exact ih name

theorem findEntry_filter_mono : ∀ (es : List (String × Nat)) (name c : String) (v : Nat),
    findEntry (es.filter (fun e => !(e.1 == name))) c = some v →
    findEntry es c = some v := by
  intro es
  induction es with
  | nil => intro name c v h; simp [findEntry] at h
  | cons e rest ih =>
    intro name c v h
    obtain ⟨n, i⟩ := e
    by_cases hn : n = name
    · by_cases hc : n = c
      · exfalso
        have hcn : c = name := by rw [← hc, hn]
        rw [hcn] at h
        rw [show ((n, i) :: rest).filter (fun e => !(e.1 == name)) =
              rest.filter (fun e => !(e.1 == name)) by simp [hn]] at h
        rw [findEntry_filter_self rest name] at h
        exact Option.noConfusion h
      · rw [show ((n, i) :: rest).filter (fun e => !(e.1 == name)) =
              rest.filter (fun e => !(e.1 == name)) by simp [hn]] at h
        simpa [findEntry, hc] using ih name c v h
    · have hb : (n == name) = false := by simpa using hn
      rw [show ((n, i) :: rest).filter (fun e => !(e.1 == name)) =
            (n, i) :: rest.filter (fun e => !(e.1 == name)) by simp [hb]] at h
      by_cases hc : n = c
      · simpa [findEntry, hc] using by simpa [findEntry, hc] using h
      · simpa [findEntry, hc] using ih name c v (by simpa [findEntry, hc] using h)

/-! ## Resolution lemmas -/

theorem resolveFrom_append (st : VFSState) :
    ∀ (xs ys : List String) (cur : Nat),
      resolveFrom st cur (xs ++ ys) =
        (resolveFrom st cur xs).bind (fun m => resolveFrom st m ys) := by
  intro xs
  induction xs with
  | nil => intro ys cur; simp [resolveFrom]
  | cons c rest ih =>
    intro ys cur
    simp only [List.cons_append, resolveFrom]
    cases hi : getInode st cur with
    | none => simp
    | some ino =>
      cases hp : ino.payload with
      | file data => simp [hp]
      | dir es =>
        cases hf : findEntry es c with
        | none => simp [hp, hf]
        | some nxt =>
          simp only [hp, hf]
          exact ih ys nxt

theorem path_decomp : ∀ (path : List String), path ≠ [] →
    path = path.dropLast ++ [path.getLastD emptyStr] := by
  intro path
  induction path with
  | nil => intro h; exact absurd rfl h
  | cons x xs ih =>
    intro _
    cases xs with
    | nil => rfl
    | cons y ys =>
      have h2 := ih (by simp)
      exact congrArg (List.cons x) h2

/-! ## countTrue lemmas -/

theorem countTrue_pos_firstIdx : ∀ (fm : List Bool), 0 < countTrue fm →
    ∃ i, firstIdx (fun b => b) fm = some i := by
  intro fm
  induction fm with
  | nil => intro h; simp [countTrue] at h
  | cons x xs ih =>
    intro h
    cases x with
    | true => exact ⟨0, by simp [firstIdx]⟩
    | false =>
      have : 0 < countTrue xs := by simpa [countTrue] using h
      obtain ⟨i, hi⟩ := ih this
      exact ⟨i + 1, by simp [firstIdx, hi]⟩

theorem countTrue_set_false : ∀ (fm : List Bool) (i : Nat), fm.getD i false = true →
    countTrue fm = countTrue (fm.set i false) + 1 := by
  intro fm
  induction fm with
  | nil => intro i h; simp [List.getD] at h
  | cons x xs ih =>
    intro i h
    cases i with
    | zero =>
      have hx : x = true := h
      simp [countTrue, hx, List.set]
    | succ m =>
      have hm : xs.getD m false = true := by simpa [List.getD_cons_succ] using h
      have hxs := ih m hm
      have hset : (x :: xs).set (m + 1) false = x :: xs.set m false := rfl
      rw [hset]
      simp [countTrue, List.count_cons] at hxs ⊢
      cases x with
      | true => simp; omega
      | false => simp; omega

/-! ## mkFreeMap lemmas -/

theorem mkFreeMap_length : ∀ (k i : Nat), (mkFreeMap i k).length = k := by
  intro k
  induction k with
  | zero => intro i; rfl
  | succ m ih => intro i; simpa [mkFreeMap] using ih (i + 1)

theorem mkFreeMap_getD : ∀ (k i j : Nat), j < k →
    (mkFreeMap i k).getD j false = decide (reservedBlocks ≤ i + j) := by
  intro k
  induction k with
  | zero => intro i j h; omega
  | succ m ih =>
    intro i j h
    cases j with
    | zero => simp [mkFreeMap]
    | succ n =>
      have := ih (i + 1) n (by omega)
      simpa [mkFreeMap, List.getD_cons_succ, Nat.add_assoc, Nat.add_comm 1 n] using this

/-! ## Allocator lemmas -/

theorem allocBlock_some (st : VFSState) (b : Nat) (st' : VFSState)
    (h : allocBlock st = some (b, st')) :
    st.freeMap.getD b false = true ∧ b < st.freeMap.length ∧
    (∀ j, j < b → st.freeMap.getD j false = false) ∧
    st' = { st with freeMap := st.freeMap.set b false,
                    writeCount := st.writeCount + 1 } := by
  unfold allocBlock at h
  cases hf : firstIdx (fun b => b) st.freeMap with
  | none => rw [hf] at h; exact Option.noConfusion h
  | some i =>
    rw [hf] at h
    simp only [Option.some.injEq, Prod.mk.injEq] at h
    obtain ⟨rfl, rfl⟩ := h
    exact ⟨firstIdx_some_getD _ false _ _ hf, firstIdx_some_lt _ _ _ hf,
      fun j hj => firstIdx_some_before _ false _ _ hf j hj, rfl⟩

theorem allocBlock_none (st : VFSState) :
    allocBlock st = none ↔ ∀ j, j < st.freeMap.length → st.freeMap.getD j false = false := by
  constructor
  · intro h
    unfold allocBlock at h
    cases hf : firstIdx (fun b => b) st.freeMap with
    | none => exact firstIdx_none _ false _ hf
    | some i => rw [hf] at h; exact Option.noConfusion h
  · intro h
    unfold allocBlock
    cases hf : firstIdx (fun b => b) st.freeMap with
    | none => rfl
    | some i =>
      have h1 := firstIdx_some_getD (fun b => b) false _ _ hf
      have h2 := firstIdx_some_lt (fun b => b) _ _ hf
      rw [h i h2] at h1
      exact Bool.noConfusion h1

theorem markAlloc_length : ∀ (bs : List Nat) (fm : List Bool),
    (markAlloc fm bs).length = fm.length := by
  intro bs
  induction bs with
  | nil => intro fm; rfl
  | cons x rest ih => intro fm; simpa [markAlloc] using ih (fm.set x false)

theorem markAlloc_getD_notMem : ∀ (bs : List Nat) (fm : List Bool) (b : Nat), b ∉ bs →
    (markAlloc fm bs).getD b false = fm.getD b false := by
  intro bs
  induction bs with
  | nil => intro fm b _; rfl
  | cons x rest ih =>
    intro fm b hb
    have hx : b ≠ x := fun he => hb (by simp [he])
    have hr : b ∉ rest := fun he => hb (by simp [he])
    rw [show markAlloc fm (x :: rest) = markAlloc (fm.set x false) rest from rfl]
    rw [ih (fm.set x false) b hr]
    exact getD_set_ne _ _ _ _ _ (fun he => hx he.symm)

theorem markAlloc_getD_mem : ∀ (bs : List Nat) (fm : List Bool) (b : Nat), b ∈ bs →
    b < fm.length → (markAlloc fm bs).getD b false = false := by
  intro bs
  induction bs with
  | nil => intro fm b hb _; simp at hb
  | cons x rest ih =>
    intro fm b hb hlen
    rw [show markAlloc fm (x :: rest) = markAlloc (fm.set x false) rest from rfl]
    by_cases hr : b ∈ rest
    · exact ih (fm.set x false) b hr (by simpa using hlen)
    · have hx : b = x := by
        rcases List.mem_cons.mp hb with h | h
        · exact h
        · exact absurd h hr
      subst hx
      rw [markAlloc_getD_notMem rest (fm.set b false) b hr]
      exact getD_set_eq _ _ _ _ hlen

theorem markFree_length : ∀ (bs : List Nat) (fm : List Bool),
    (markFree fm bs).length = fm.length := by
  intro bs
  induction bs with
  | nil => intro fm; rfl
  | cons x rest ih => intro fm; simpa [markFree] using ih (fm.set x true)

theorem markFree_getD_notMem : ∀ (bs : List Nat) (fm : List Bool) (b : Nat), b ∉ bs →
    (markFree fm bs).getD b false = fm.getD b false := by
  intro bs
  induction bs with
  | nil => intro fm b _; rfl
  | cons x rest ih =>
    intro fm b hb
    have hx : b ≠ x := fun he => hb (by simp [he])
    have hr : b ∉ rest := fun he => hb (by simp [he])
    rw [show markFree fm (x :: rest) = markFree (fm.set x true) rest from rfl]
    rw [ih (fm.set x true) b hr]
    exact getD_set_ne _ _ _ _ _ (fun he => hx he.symm)

theorem markFree_getD_mem : ∀ (bs : List Nat) (fm : List Bool) (b : Nat), b ∈ bs →
    b < fm.length → (markFree fm bs).getD b false = true := by
  intro bs
  induction bs with
  | nil => intro fm b hb _; simp at hb
  | cons x rest ih =>
    intro fm b hb hlen
    rw [show markFree fm (x :: rest) = markFree (fm.set x true) rest from rfl]
    by_cases hr : b ∈ rest
    · exact ih (fm.set x true) b hr (by simpa using hlen)
    · have hx : b = x := by
        rcases List.mem_cons.mp hb with h | h
        · exact h
        · exact absurd h hr
      subst hx
      rw [markFree_getD_notMem rest (fm.set b true) b hr]
      exact getD_set_eq _ _ _ _ hlen

theorem allocMany_spec : ∀ (n : Nat) (st st' : VFSState) (bs : List Nat) (ok : Bool),
    allocMany st n = (st', bs, ok) →
      st'.numBlocks = st.numBlocks ∧ st'.inodes = st.inodes ∧ st'.fdTable = st.fdTable ∧
      st'.freeMap = markAlloc st.freeMap bs ∧ bs.Nodup ∧
      (∀ b ∈ bs, b < st.freeMap.length ∧ st.freeMap.getD b false = true) ∧
      (ok = true → bs.length = n) := by
  intro n
  induction n with
  | zero =>
    intro st st' bs ok h
    simp only [allocMany, Prod.mk.injEq] at h
    obtain ⟨rfl, rfl, rfl⟩ := h
    exact ⟨rfl, rfl, rfl, rfl, List.nodup_nil, by simp, fun _ => rfl⟩
  | succ m ih =>
    intro st st' bs ok h
    cases hA : allocBlock st with
    | none =>
      simp only [allocMany, hA, Prod.mk.injEq] at h
      obtain ⟨rfl, rfl, rfl⟩ := h
      exact ⟨rfl, rfl, rfl, rfl, List.nodup_nil, by simp, fun hc => Bool.noConfusion hc⟩
    | some v =>
      obtain ⟨i, st1⟩ := v
      obtain ⟨hfree, hlen, _, hst1⟩ := allocBlock_some st i st1 hA
      cases hm : allocMany st1 m with
      | mk st2 rest2 =>
        obtain ⟨rest, ok2⟩ := rest2
        simp only [allocMany, hA, hm, Prod.mk.injEq] at h
        obtain ⟨rfl, rfl, rfl⟩ := h
        obtain ⟨ha, hb, hc, hd, he, hf, hg⟩ := ih st1 st2 rest ok2 hm
        have hfm1 : st1.freeMap = st.freeMap.set i false := by rw [hst1]
        have hnotmem : i ∉ rest := by
          intro hmem
          have := (hf i hmem).2
          rw [hfm1, getD_set_eq _ _ _ _ hlen] at this
          exact Bool.noConfusion this
        refine ⟨by rw [ha, hst1], by rw [hb, hst1], by rw [hc, hst1], ?_, ?_, ?_, ?_⟩
        · rw [hd, hfm1]; rfl
        · exact List.nodup_cons.mpr ⟨hnotmem, he⟩
        · intro b hbmem
          rcases List.mem_cons.mp hbmem with hbi | hbr
          · subst hbi; exact ⟨hlen, hfree⟩
          · have hbp := hf b hbr
            have hbne : b ≠ i := fun he' => hnotmem (he' ▸ hbr)
            rw [hfm1] at hbp
            rw [getD_set_ne _ _ _ _ _ (fun he' => hbne he'.symm)] at hbp
            exact ⟨by simpa using hbp.1, hbp.2⟩
        · intro hok
          simp [hg hok]

theorem getD_default_of_le {α : Type _} : ∀ (l : List α) (j : Nat) (d : α),
    l.length ≤ j → l.getD j d = d := by
  intro l
  induction l with
  | nil => intro j d _; rfl
  | cons x xs ih =>
    intro j d h
    cases j with
    | zero => simp at h
    | succ m => simpa [List.getD_cons_succ] using ih m d (by simpa using h)

theorem allocMany_ok : ∀ (n : Nat) (st : VFSState), n ≤ countTrue st.freeMap →
    (allocMany st n).2.2 = true := by
  intro n
  induction n with
  | zero => intro st _; rfl
  | succ m ih =>
    intro st hle
    have hpos : 0 < countTrue st.freeMap := by omega
    obtain ⟨i, hi⟩ := countTrue_pos_firstIdx st.freeMap hpos
    cases hA2 : allocBlock st with
    | none =>
      unfold allocBlock at hA2
      rw [hi] at hA2
      exact Option.noConfusion hA2
    | some v =>
      obtain ⟨i2, st1⟩ := v
      obtain ⟨hfree, hlen, _, hst1⟩ := allocBlock_some st i2 st1 hA2
      have hcount := countTrue_set_false st.freeMap i2 hfree
      have hm : m ≤ countTrue st1.freeMap := by
        rw [hst1]
        show m ≤ countTrue (st.freeMap.set i2 false)
        omega
      have hrec := ih st1 hm
      simp only [allocMany, hA2]
      cases hq : allocMany st1 m with
      | mk st2 r2 =>
        obtain ⟨rest, ok2⟩ := r2
        rw [hq] at hrec
        simpa using hrec

theorem freeBlock_fields (st : VFSState) (b : Nat) :
    (freeBlock st b).1.numBlocks = st.numBlocks ∧ (freeBlock st b).1.inodes = st.inodes ∧
    (freeBlock st b).1.fdTable = st.fdTable ∧
    (freeBlock st b).1.freeMap.length = st.freeMap.length := by
  unfold freeBlock
  by_cases h1 : b < reservedBlocks
  · rw [if_pos h1]; exact ⟨rfl, rfl, rfl, rfl⟩
  · rw [if_neg h1]
    by_cases h2 : st.freeMap.getD b false = true
    · rw [if_pos h2]; exact ⟨rfl, rfl, rfl, rfl⟩
    · rw [if_neg h2]; exact ⟨rfl, rfl, rfl, by simp⟩

theorem freeAll_fields : ∀ (l : List Nat) (st : VFSState),
    (freeAll st l).numBlocks = st.numBlocks ∧ (freeAll st l).inodes = st.inodes ∧
    (freeAll st l).fdTable = st.fdTable ∧
    (freeAll st l).freeMap.length = st.freeMap.length := by
  intro l
  induction l with
  | nil => intro st; exact ⟨rfl, rfl, rfl, rfl⟩
  | cons b rest ih =>
    intro st
    obtain ⟨f1, f2, f3, f4⟩ := freeBlock_fields st b
    obtain ⟨g1, g2, g3, g4⟩ := ih (freeBlock st b).1
    exact ⟨by rw [show freeAll st (b :: rest) = freeAll (freeBlock st b).1 rest from rfl, g1, f1],
           by rw [show freeAll st (b :: rest) = freeAll (freeBlock st b).1 rest from rfl, g2, f2],
           by rw [show freeAll st (b :: rest) = freeAll (freeBlock st b).1 rest from rfl, g3, f3],
           by rw [show freeAll st (b :: rest) = freeAll (freeBlock st b).1 rest from rfl, g4, f4]⟩

theorem getD_set_true_of_true : ∀ (l : List Bool) (x b : Nat),
    l.getD b false = true → (l.set x true).getD b false = true := by
  intro l x b h
  by_cases hb : b < l.length
  · by_cases hx : x = b
    · subst hx; exact getD_set_eq _ _ _ _ hb
    · rw [getD_set_ne _ _ _ _ _ hx]; exact h
  · rw [getD_default_of_le l b false (by omega)] at h
    exact Bool.noConfusion h

theorem freeBlock_getD_mono (st : VFSState) (x b : Nat)
    (h : st.freeMap.getD b false = true) :
    (freeBlock st x).1.freeMap.getD b false = true := by
  unfold freeBlock
  by_cases h1 : x < reservedBlocks
  · rw [if_pos h1]; exact h
  · rw [if_neg h1]
    by_cases h2 : st.freeMap.getD x false = true
    · rw [if_pos h2]; exact h
    · rw [if_neg h2]; exact getD_set_true_of_true st.freeMap x b h

theorem freeAll_getD_mono : ∀ (l : List Nat) (st : VFSState) (b : Nat),
    st.freeMap.getD b false = true → (freeAll st l).freeMap.getD b false = true := by
  intro l
  induction l with
  | nil => intro st b h; exact h
  | cons x rest ih =>
    intro st b h
    exact ih (freeBlock st x).1 b (freeBlock_getD_mono st x b h)

theorem freeAll_getD_free : ∀ (l : List Nat) (st : VFSState) (b : Nat), b ∈ l →
    reservedBlocks ≤ b → b < st.freeMap.length →
    (freeAll st l).freeMap.getD b false = true := by
  intro l
  induction l with
  | nil => intro st b hb _ _; simp at hb
  | cons x rest ih =>
    intro st b hb hres hlen
    rcases List.mem_cons.mp hb with hbx | hbr
    · subst hbx
      have hstep : (freeBlock st b).1.freeMap.getD b false = true := by
        unfold freeBlock
        rw [if_neg (show ¬(b < reservedBlocks) by omega)]
        by_cases h2 : st.freeMap.getD b false = true
        · rw [if_pos h2]; exact h2
        · rw [if_neg h2]; exact getD_set_eq _ _ _ _ hlen
      exact freeAll_getD_mono rest (freeBlock st b).1 b hstep
    · have hlen1 : b < (freeBlock st x).1.freeMap.length := by
        rw [(freeBlock_fields st x).2.2.2]; exact hlen
      exact ih (freeBlock st x).1 b hbr hres hlen1

/-! ## blockRefs lemmas -/

theorem blockRefs_set : ∀ (l : List (Option Inode)) (j : Nat) (o : Option Inode) (b : Nat),
    j < l.length →
    blockRefs (l.set j o) b + refsIn (l.getD j none) b = blockRefs l b + refsIn o b := by
  intro l
  induction l with
  | nil => intro j o b h; simp at h
  | cons x xs ih =>
    intro j o b h
    cases j with
    | zero =>
      simp only [List.set, blockRefs, List.getD_cons_zero]
      omega
    | succ m =>
      simp only [List.set, blockRefs, List.getD_cons_succ]
      have := ih m o b (by simpa using h)
      omega

theorem refsIn_le_blockRefs : ∀ (l : List (Option Inode)) (j b : Nat),
    refsIn (l.getD j none) b ≤ blockRefs l b := by
  intro l
  induction l with
  | nil => intro j b; simp [List.getD, refsIn, blockRefs]
  | cons x xs ih =>
    intro j b
    cases j with
    | zero => simp [blockRefs]
    | succ m =>
      simp only [List.getD_cons_succ, blockRefs]
      have := ih m b
      omega

theorem getD_replicate_none {α : Type _} : ∀ (k j : Nat),
    (List.replicate k (none : Option α)).getD j none = none := by
  intro k
  induction k with
  | zero => intro j; rfl
  | succ m ih =>
    intro j
    cases j with
    | zero => rfl
    | succ n =>
      rw [show List.replicate (m + 1) (none : Option α) = none :: List.replicate m none
            from rfl, List.getD_cons_succ]
      exact ih n

theorem blockRefs_replicate_none : ∀ (k b : Nat),
    blockRefs (List.replicate k none) b = 0 := by
  intro k
  induction k with
  | zero => intro b; rfl
  | succ m ih => intro b; simpa [List.replicate, blockRefs, refsIn] using ih b

/-! ## invCore preservation -/

theorem invCore_frame (st st' : VFSState) (h1 : st'.numBlocks = st.numBlocks)
    (h2 : st'.freeMap = st.freeMap) (h3 : st'.inodes = st.inodes)
    (h : invCore st) : invCore st' := by
  unfold invCore at *
  rw [h1, h2, h3]
  exact h

theorem invCore_init (n : Nat) : invCore (initState n) := by
  refine ⟨?_, ?_, ?_, ?_⟩
  · exact mkFreeMap_length n 0
  · intro b hb
    have hb0 : b = 0 := by
      have : reservedBlocks = 1 := rfl
      omega
    subst hb0
    constructor
    · by_cases hn : 0 < n
      · rw [show (initState n).freeMap = mkFreeMap 0 n from rfl, mkFreeMap_getD n 0 0 hn]
        rfl
      · rw [show (initState n).freeMap = mkFreeMap 0 n from rfl]
        exact getD_default_of_le _ _ _ (by rw [mkFreeMap_length]; omega)
    · show blockRefs (some rootInode :: List.replicate (numInodes - 1) none) 0 = 0
      simp [blockRefs, refsIn, rootInode, blockRefs_replicate_none]
  · intro b hres hlt
    left
    constructor
    · rw [show (initState n).freeMap = mkFreeMap 0 n from rfl, mkFreeMap_getD n 0 b hlt]
      simpa using hres
    · show blockRefs (some rootInode :: List.replicate (numInodes - 1) none) b = 0
      simp [blockRefs, refsIn, rootInode, blockRefs_replicate_none]
  · intro j ino hj b hb
    cases j with
    | zero =>
      have hroot : (initState n).inodes.getD 0 none = some rootInode := rfl
      rw [hroot] at hj
      have hino : ino = rootInode := (Option.some.inj hj).symm
      subst hino
      simp [rootInode] at hb
    | succ m =>
      rw [show (initState n).inodes = some rootInode :: List.replicate (numInodes - 1) none
            from rfl, List.getD_cons_succ, getD_replicate_none] at hj
      exact Option.noConfusion hj

theorem invCore_attach (st st' : VFSState) (p : Nat) (pino ino' : Inode) (bs : List Nat)
    (hInv : invCore st) (hp : st.inodes.getD p none = some pino)
    (hblocks : ino'.blocks = pino.blocks ++ bs) (hnd : bs.Nodup)
    (hbs : ∀ b ∈ bs, b < st.freeMap.length ∧ st.freeMap.getD b false = true)
    (h1 : st'.numBlocks = st.numBlocks) (h2 : st'.freeMap = markAlloc st.freeMap bs)
    (h3 : st'.inodes = st.inodes.set p (some ino')) : invCore st' := by
  obtain ⟨c1, c2, c3, c4⟩ := hInv
  have hplen : p < st.inodes.length := lt_of_getD_some _ _ _ hp
  have hrefs : ∀ b, blockRefs st'.inodes b = blockRefs st.inodes b + bs.count b := by
    intro b
    have hset := blockRefs_set st.inodes p (some ino') b hplen
    rw [hp] at hset
    have hcnt : refsIn (some ino') b = pino.blocks.count b + bs.count b := by
      simp [refsIn, hblocks, List.count_append]
    have hpin : refsIn (some pino) b = pino.blocks.count b := by simp [refsIn]
    rw [hcnt, hpin] at hset
    rw [h3]
    omega
  refine ⟨?_, ?_, ?_, ?_⟩
  · rw [h2, markAlloc_length, c1, h1]
  · intro b hb
    have hnot : b ∉ bs := by
      intro hm
      have hfree := (hbs b hm).2
      rw [(c2 b hb).1] at hfree
      exact Bool.noConfusion hfree
    constructor
    · rw [h2, markAlloc_getD_notMem bs _ b hnot]
      exact (c2 b hb).1
    · rw [hrefs b, List.count_eq_zero.mpr hnot]
      simpa using (c2 b hb).2
  · intro b hres hlt
    rw [h1] at hlt
    by_cases hmem : b ∈ bs
    · right
      have hblt := (hbs b hmem).1
      have hfree := (hbs b hmem).2
      constructor
      · rw [h2]; exact markAlloc_getD_mem bs _ b hmem hblt
      · have hzero : blockRefs st.inodes b = 0 := by
          rcases c3 b hres hlt with ⟨_, hr⟩ | ⟨hf, _⟩
          · exact hr
          · rw [hf] at hfree; exact Bool.noConfusion hfree
        rw [hrefs b, hzero, List.count_eq_one_of_mem hnd hmem]
    · have heq : st'.freeMap.getD b false = st.freeMap.getD b false := by
        rw [h2]; exact markAlloc_getD_notMem bs _ b hmem
      have hreq : blockRefs st'.inodes b = blockRefs st.inodes b := by
        rw [hrefs b, List.count_eq_zero.mpr hmem]
        omega
      rw [heq, hreq]
      exact c3 b hres hlt
  · intro j ino2 hj b hb
    rw [h1]
    rw [h3] at hj
    by_cases hjp : j = p
    · subst hjp
      rw [getD_set_eq _ _ _ _ hplen] at hj
      have hino2 : ino2 = ino' := (Option.some.inj hj).symm
      subst hino2
      rw [hblocks] at hb
      rcases List.mem_append.mp hb with hbp | hbb
      · exact c4 j pino hp b hbp
      · rw [← c1]; exact (hbs b hbb).1
    · rw [getD_set_ne _ _ _ _ _ (fun he => hjp he.symm)] at hj
      exact c4 j ino2 hj b hb

theorem invCore_newSlot (st st' : VFSState) (s : Nat) (child : Inode)
    (hInv : invCore st) (hs : st.inodes.getD s none = none) (hslen : s < st.inodes.length)
    (hchild : child.blocks = [])
    (h1 : st'.numBlocks = st.numBlocks) (h2 : st'.freeMap = st.freeMap)
    (h3 : st'.inodes = st.inodes.set s (some child)) : invCore st' := by
  obtain ⟨c1, c2, c3, c4⟩ := hInv
  have hrefs : ∀ b, blockRefs st'.inodes b = blockRefs st.inodes b := by
    intro b
    have hset := blockRefs_set st.inodes s (some child) b hslen
    rw [hs] at hset
    have : refsIn (some child) b = 0 := by simp [refsIn, hchild]
    rw [this] at hset
    rw [h3]
    simpa [refsIn] using hset
  refine ⟨?_, ?_, ?_, ?_⟩
  · rw [h2, c1, h1]
  · intro b hb
    rw [h2, hrefs b]
    exact c2 b hb
  · intro b hres hlt
    rw [h1] at hlt
    rw [h2, hrefs b]
    exact c3 b hres hlt
  · intro j ino2 hj b hb
    rw [h1]
    rw [h3] at hj
    by_cases hjs : j = s
    · subst hjs
      rw [getD_set_eq _ _ _ _ hslen] at hj
      have hino2 : ino2 = child := (Option.some.inj hj).symm
      subst hino2
      rw [hchild] at hb
      simp at hb
    · rw [getD_set_ne _ _ _ _ _ (fun he => hjs he.symm)] at hj
      exact c4 j ino2 hj b hb

theorem freeAll_eq_markFree : ∀ (l : List Nat) (st : VFSState), l.Nodup →
    (∀ b ∈ l, reservedBlocks ≤ b ∧ b < st.freeMap.length ∧ st.freeMap.getD b false = false) →
    (freeAll st l).freeMap = markFree st.freeMap l := by
  intro l
  induction l with
  | nil => intro st _ _; rfl
  | cons x rest ih =>
    intro st hnd hcond
    obtain ⟨hxr, hxl, hxf⟩ := hcond x (List.mem_cons_self x rest)
    have hstep : (freeBlock st x).1.freeMap = st.freeMap.set x true := by
      unfold freeBlock
      rw [if_neg (show ¬(x < reservedBlocks) by omega)]
      rw [if_neg (by rw [hxf]; exact Bool.noConfusion)]
    have hnd' : rest.Nodup := (List.nodup_cons.mp hnd).2
    have hxnot : x ∉ rest := (List.nodup_cons.mp hnd).1
    have hcond' : ∀ b ∈ rest, reservedBlocks ≤ b ∧ b < (freeBlock st x).1.freeMap.length ∧
        (freeBlock st x).1.freeMap.getD b false = false := by
      intro b hb
      obtain ⟨hr, hl, hf⟩ := hcond b (List.mem_cons_of_mem x hb)
      have hbx : b ≠ x := fun he => hxnot (he ▸ hb)
      refine ⟨hr, by rw [hstep]; simpa using hl, ?_⟩
      rw [hstep, getD_set_ne _ _ _ _ _ (fun he => hbx he.symm)]
      exact hf
    rw [show freeAll st (x :: rest) = freeAll (freeBlock st x).1 rest from rfl]
    rw [ih (freeBlock st x).1 hnd' hcond']
    rw [show markFree st.freeMap (x :: rest) = markFree (st.freeMap.set x true) rest from rfl]
    rw [hstep]

theorem invCore_detach (st st' : VFSState) (p c : Nat) (pino pino' cino : Inode)
    (hInv : invCore st) (hp : st.inodes.getD p none = some pino)
    (hc : st.inodes.getD c none = some cino) (hpc : p ≠ c)
    (hpb : pino'.blocks = pino.blocks)
    (h1 : st'.numBlocks = st.numBlocks)
    (h2 : st'.freeMap = markFree st.freeMap cino.blocks)
    (h3 : st'.inodes = (st.inodes.set p (some pino')).set c none) : invCore st' := by
  obtain ⟨c1, c2, c3, c4⟩ := hInv
  have hplen : p < st.inodes.length := lt_of_getD_some _ _ _ hp
  have hclen : c < st.inodes.length := lt_of_getD_some _ _ _ hc
  have hcb : ∀ b ∈ cino.blocks, reservedBlocks ≤ b ∧ b < st.numBlocks ∧
      st.freeMap.getD b false = false ∧ blockRefs st.inodes b = 1 := by
    intro b hb
    have hlt : b < st.numBlocks := c4 c cino hc b hb
    have hcount : 1 ≤ cino.blocks.count b := List.count_pos_iff.mpr hb
    have hle : refsIn (st.inodes.getD c none) b ≤ blockRefs st.inodes b :=
      refsIn_le_blockRefs st.inodes c b
    rw [hc] at hle
    have hle2 : cino.blocks.count b ≤ blockRefs st.inodes b := by
      simpa [refsIn] using hle
    have hres : reservedBlocks ≤ b := by
      by_contra hcon
      have := (c2 b (by omega)).2
      omega
    rcases c3 b hres hlt with ⟨_, hr⟩ | ⟨hf, hr⟩
    · omega
    · exact ⟨hres, hlt, hf, hr⟩
  have hrefs : ∀ b, blockRefs st'.inodes b + cino.blocks.count b = blockRefs st.inodes b := by
    intro b
    have hs1 := blockRefs_set st.inodes p (some pino') b hplen
    rw [hp] at hs1
    have hpe : refsIn (some pino') b = refsIn (some pino) b := by simp [refsIn, hpb]
    rw [hpe] at hs1
    have heq1 : blockRefs (st.inodes.set p (some pino')) b = blockRefs st.inodes b := by omega
    have hs2 := blockRefs_set (st.inodes.set p (some pino')) c none b (by simpa using hclen)
    rw [getD_set_ne _ _ _ _ _ hpc, hc] at hs2
    rw [heq1] at hs2
    rw [h3]
    simp only [refsIn] at hs2
    omega
  refine ⟨?_, ?_, ?_, ?_⟩
  · rw [h2, markFree_length, c1, h1]
  · intro b hb
    have hnot : b ∉ cino.blocks := by
      intro hm
      have := (hcb b hm).1
      omega
    constructor
    · rw [h2, markFree_getD_notMem _ _ b hnot]
      exact (c2 b hb).1
    · have := hrefs b
      rw [List.count_eq_zero.mpr hnot] at this
      have h0 := (c2 b hb).2
      omega
  · intro b hres hlt
    rw [h1] at hlt
    by_cases hmem : b ∈ cino.blocks
    · left
      obtain ⟨_, _, hf, hr⟩ := hcb b hmem
      constructor
      · rw [h2]
        exact markFree_getD_mem _ _ b hmem (by rw [c1]; exact (hcb b hmem).2.1)
      · have hcnt1 : cino.blocks.count b = 1 := by
          have h1c : 1 ≤ cino.blocks.count b := List.count_pos_iff.mpr hmem
          have hle : refsIn (st.inodes.getD c none) b ≤ blockRefs st.inodes b :=
            refsIn_le_blockRefs st.inodes c b
          rw [hc] at hle
          simp only [refsIn] at hle
          omega
        have := hrefs b
        omega
    · have heq : st'.freeMap.getD b false = st.freeMap.getD b false := by
        rw [h2]; exact markFree_getD_notMem _ _ b hmem
      have hreq : blockRefs st'.inodes b = blockRefs st.inodes b := by
        have := hrefs b
        rw [List.count_eq_zero.mpr hmem] at this
        omega
      rw [heq, hreq]
      exact c3 b hres hlt
  · intro j ino2 hj b hb
    rw [h1]
    rw [h3] at hj
    by_cases hjc : j = c
    · subst hjc
      rw [getD_set_eq _ _ _ _ (by simpa using hclen)] at hj
      exact Option.noConfusion hj
    · rw [getD_set_ne _ _ _ _ _ (fun he => hjc he.symm)] at hj
      by_cases hjp : j = p
      · subst hjp
        rw [getD_set_eq _ _ _ _ hplen] at hj
        have hino2 : ino2 = pino' := (Option.some.inj hj).symm
        subst hino2
        rw [hpb] at hb
        exact c4 j pino hp b hb
      · rw [getD_set_ne _ _ _ _ _ (fun he => hjp he.symm)] at hj
        exact c4 j ino2 hj b hb

theorem cino_blocks_nodup (st : VFSState) (c : Nat) (cino : Inode)
    (hc : st.inodes.getD c none = some cino)
    (hone : ∀ b ∈ cino.blocks, blockRefs st.inodes b = 1) : cino.blocks.Nodup := by
  rw [List.nodup_iff_count_le_one]
  intro a
  by_cases hm : a ∈ cino.blocks
  · have hle : refsIn (st.inodes.getD c none) a ≤ blockRefs st.inodes a :=
      refsIn_le_blockRefs st.inodes c a
    rw [hc] at hle
    simp only [refsIn] at hle
    rw [hone a hm] at hle
    exact hle
  · rw [List.count_eq_zero.mpr hm]
    omega

/-! ## Field-preservation of read-only operations -/

theorem open_fields (st : VFSState) (path : List String) :
    (csx730_open st path).2.numBlocks = st.numBlocks ∧
    (csx730_open st path).2.freeMap = st.freeMap ∧
    (csx730_open st path).2.inodes = st.inodes := by
  unfold csx730_open
  repeat' first
  | exact ⟨rfl, rfl, rfl⟩
  | split

theorem close_fields (st : VFSState) (fd : Nat) :
    (csx730_close st fd).2.numBlocks = st.numBlocks ∧
    (csx730_close st fd).2.freeMap = st.freeMap ∧
    (csx730_close st fd).2.inodes = st.inodes := by
  unfold csx730_close
  repeat' first
  | exact ⟨rfl, rfl, rfl⟩
  | split

theorem seek_fields (st : VFSState) (fd off : Nat) :
    (csx730_seek st fd off).2.numBlocks = st.numBlocks ∧
    (csx730_seek st fd off).2.freeMap = st.freeMap ∧
    (csx730_seek st fd off).2.inodes = st.inodes := by
  unfold csx730_seek
  repeat' first
  | exact ⟨rfl, rfl, rfl⟩
  | split

theorem read_fields (st : VFSState) (fd len : Nat) :
    (csx730_read st fd len).2.numBlocks = st.numBlocks ∧
    (csx730_read st fd len).2.freeMap = st.freeMap ∧
    (csx730_read st fd len).2.inodes = st.inodes := by
  unfold csx730_read
  repeat' first
  | exact ⟨rfl, rfl, rfl⟩
  | split

theorem stat_fields (st : VFSState) (path : List String) :
    (csx730_stat st path).2.numBlocks = st.numBlocks ∧
    (csx730_stat st path).2.freeMap = st.freeMap ∧
    (csx730_stat st path).2.inodes = st.inodes := by
  unfold csx730_stat
  repeat' first
  | exact ⟨rfl, rfl, rfl⟩
  | split

theorem fstat_fields (st : VFSState) (fd : Nat) :
    (csx730_fstat st fd).2.numBlocks = st.numBlocks ∧
    (csx730_fstat st fd).2.freeMap = st.freeMap ∧
    (csx730_fstat st fd).2.inodes = st.inodes := by
  unfold csx730_fstat
  repeat' first
  | exact ⟨rfl, rfl, rfl⟩
  | split

theorem statChild_fields (st : VFSState) (fd : Nat) :
    (csx730_stat_child st fd).2.numBlocks = st.numBlocks ∧
    (csx730_stat_child st fd).2.freeMap = st.freeMap ∧
    (csx730_stat_child st fd).2.inodes = st.inodes := by
  unfold csx730_stat_child
  repeat' first
  | exact ⟨rfl, rfl, rfl⟩
  | split

theorem statNext_fields (st : VFSState) (fd : Nat) :
    (csx730_stat_next st fd).2.numBlocks = st.numBlocks ∧
    (csx730_stat_next st fd).2.freeMap = st.freeMap ∧
    (csx730_stat_next st fd).2.inodes = st.inodes := by
  unfold csx730_stat_next
  repeat' first
  | exact ⟨rfl, rfl, rfl⟩
  | split

/-! ## invCore preservation of the mutating operations -/

theorem inode_blocks_facts (st : VFSState) (c : Nat) (cino : Inode)
    (hInv : invCore st) (hc : st.inodes.getD c none = some cino) :
    ∀ b ∈ cino.blocks, reservedBlocks ≤ b ∧ b < st.numBlocks ∧
      st.freeMap.getD b false = false ∧ blockRefs st.inodes b = 1 := by
  obtain ⟨c1, c2, c3, c4⟩ := hInv
  intro b hb
  have hlt : b < st.numBlocks := c4 c cino hc b hb
  have hcount : 1 ≤ cino.blocks.count b := List.count_pos_iff.mpr hb
  have hle : refsIn (st.inodes.getD c none) b ≤ blockRefs st.inodes b :=
    refsIn_le_blockRefs st.inodes c b
  rw [hc] at hle
  have hle2 : cino.blocks.count b ≤ blockRefs st.inodes b := by
    simpa [refsIn] using hle
  have hres : reservedBlocks ≤ b := by
    by_contra hcon
    have := (c2 b (by omega)).2
    omega
  rcases c3 b hres hlt with ⟨_, hr⟩ | ⟨hf, hr⟩
  · omega
  · exact ⟨hres, hlt, hf, hr⟩

theorem creat_core (st : VFSState) (path : List String) (d : Bool) (hInv : invCore st) :
    invCore (csx730_creat st path d).2 := by
  cases hrp : resolveParent st path with
  | none => simp only [csx730_creat, hrp]; exact hInv
  | some pr =>
    obtain ⟨p, name⟩ := pr
    cases hp : getInode st p with
    | none => simp only [csx730_creat, hrp, hp]; exact hInv
    | some pino =>
      cases hpl : pino.payload with
      | file data => simp only [csx730_creat, hrp, hp, hpl]; exact hInv
      | dir es =>
        cases hfe : findEntry es name with
        | some v => simp only [csx730_creat, hrp, hp, hpl, hfe]; exact hInv
        | none =>
          cases hs : firstIdx Option.isNone st.inodes with
          | none => simp only [csx730_creat, hrp, hp, hpl, hfe, hs]; exact hInv
          | some s =>
            cases hal : allocMany st (dirBlocksFor (es.length + 1) - pino.blocks.length) with
            | mk st1 r =>
              obtain ⟨bs, ok⟩ := r
              cases ok with
              | false => simp only [csx730_creat, hrp, hp, hpl, hfe, hs, hal]; exact hInv
              | true =>
                simp only [csx730_creat, hrp, hp, hpl, hfe, hs, hal, if_true]
                obtain ⟨ha1, ha2, ha3, ha4, ha5, ha6, ha7⟩ := allocMany_spec _ st st1 bs true hal
                have hpd : st.inodes.getD p none = some pino := hp
                have hslen : s < st.inodes.length := firstIdx_some_lt _ _ _ hs
                have hsnone : st.inodes.getD s none = none := by
                  have := firstIdx_some_getD Option.isNone none _ _ hs
                  exact Option.isNone_iff_eq_none.mp this
                have hps : p ≠ s := by
                  intro he
                  rw [he, hsnone] at hpd
                  exact Option.noConfusion hpd
                set pino' : Inode :=
                  { pino with payload := Payload.dir (es ++ [(name, s)]),
                              blocks := pino.blocks ++ bs,
                              size := (es.length + 1) * entrySize } with hpino'
                have hmid : invCore { st1 with inodes := st1.inodes.set p (some pino') } := by
                  apply invCore_attach st _ p pino pino' bs hInv hpd rfl ha5 ha6
                  · exact ha1
                  · exact ha4
                  · rw [ha2]
                apply invCore_newSlot { st1 with inodes := st1.inodes.set p (some pino') }
                  _ s (newInode d) hmid
                · rw [show ({ st1 with inodes := st1.inodes.set p (some pino') } :
                      VFSState).inodes = st1.inodes.set p (some pino') from rfl]
                  rw [ha2]
                  rw [getD_set_ne _ _ _ _ _ hps]
                  exact hsnone
                · rw [show ({ st1 with inodes := st1.inodes.set p (some pino') } :
                      VFSState).inodes = st1.inodes.set p (some pino') from rfl]
                  rw [ha2]
                  simpa using hslen
                · rfl
                · rfl
                · rfl
                · rfl

theorem writeInode_blocks (ino : Inode) (data : List Nat) (off : Nat)
    (bytes bs : List Nat) : (writeInode ino data off bytes bs).blocks = ino.blocks ++ bs := by
  simp only [writeInode]
  by_cases h : min bytes.length ((ino.blocks ++ bs).length * blockSize - off) = 0
  · rw [if_pos h]
  · rw [if_neg h]

theorem write_at_core (st : VFSState) (idx off : Nat) (bytes : List Nat)
    (hInv : invCore st) : invCore (write_at st idx off bytes).1 := by
  cases hi : getInode st idx with
  | none => simp only [write_at, hi]; exact hInv
  | some ino =>
    cases hpl : ino.payload with
    | dir es => simp only [write_at, hi, hpl]; exact hInv
    | file data =>
      cases hal : allocMany st (if bytes.length = 0 then 0
          else blocksForBytes (off + bytes.length) - ino.blocks.length) with
      | mk st1 r =>
        obtain ⟨bs, ok⟩ := r
        simp only [write_at, hi, hpl, hal]
        obtain ⟨ha1, ha2, ha3, ha4, ha5, ha6, _⟩ := allocMany_spec _ st st1 bs ok hal
        apply invCore_attach st _ idx ino (writeInode ino data off bytes bs) bs hInv hi
          (writeInode_blocks ino data off bytes bs) ha5 ha6
        · exact ha1
        · exact ha4
        · show st1.inodes.set idx (some (writeInode ino data off bytes bs)) =
            st.inodes.set idx (some (writeInode ino data off bytes bs))
          rw [ha2]

theorem write_core (st : VFSState) (fd : Nat) (bytes : List Nat) (hInv : invCore st) :
    invCore (csx730_write st fd bytes).2 := by
  cases hd : getDesc st fd with
  | none => simp only [csx730_write, hd]; exact hInv
  | some d =>
    cases hi : getInode st d.inodeIdx with
    | none => simp only [csx730_write, hd, hi]; exact hInv
    | some ino =>
      cases hpl : ino.payload with
      | dir es => simp only [csx730_write, hd, hi, hpl]; exact hInv
      | file data =>
        cases hw : write_at st d.inodeIdx d.offset bytes with
        | mk st1 r =>
          obtain ⟨w, af⟩ := r
          have hcore := write_at_core st d.inodeIdx d.offset bytes hInv
          rw [hw] at hcore
          simp only [csx730_write, hd, hi, hpl, hw]
          by_cases haf : (af && w == 0) = true
          · rw [if_pos haf]
            exact hcore
          · rw [if_neg haf]
            exact invCore_frame st1 _ rfl rfl rfl hcore

theorem unlink_core (st : VFSState) (path : List String) (hInv : invCore st) :
    invCore (csx730_unlink st path).2 := by
  cases hrp : resolveParent st path with
  | none => simp only [csx730_unlink, hrp]; exact hInv
  | some pr =>
    obtain ⟨p, name⟩ := pr
    cases hp : getInode st p with
    | none => simp only [csx730_unlink, hrp, hp]; exact hInv
    | some pino =>
      cases hpl : pino.payload with
      | file data => simp only [csx730_unlink, hrp, hp, hpl]; exact hInv
      | dir es =>
        cases hfe : findEntry es name with
        | none => simp only [csx730_unlink, hrp, hp, hpl, hfe]; exact hInv
        | some c =>
          cases hc : getInode st c with
          | none => simp only [csx730_unlink, hrp, hp, hpl, hfe, hc]; exact hInv
          | some cino =>
            have hdetach : p ≠ c → invCore (unlinkApply st p pino es name c cino) := by
              intro hpc
              have hfacts := inode_blocks_facts st c cino hInv hc
              have hnd := cino_blocks_nodup st c cino hc (fun b hb => (hfacts b hb).2.2.2)
              have c1 : st.freeMap.length = st.numBlocks := hInv.1
              have hfm : (freeAll st cino.blocks).freeMap =
                  markFree st.freeMap cino.blocks := by
                apply freeAll_eq_markFree _ st hnd
                intro b hb
                exact ⟨(hfacts b hb).1, by rw [c1]; exact (hfacts b hb).2.1,
                  (hfacts b hb).2.2.1⟩
              have hff := freeAll_fields cino.blocks st
              apply invCore_detach st _ p c pino
                ({ pino with
                    payload := Payload.dir (es.filter (fun e => !(e.1 == name))),
                    size := (es.filter (fun e => !(e.1 == name))).length * entrySize })
                cino hInv hp hc hpc rfl
              · exact hff.1
              · exact hfm
              · show ((freeAll st cino.blocks).inodes.set p
                    (some { pino with
                      payload := Payload.dir (es.filter (fun e => !(e.1 == name))),
                      size := (es.filter (fun e => !(e.1 == name))).length * entrySize })).set
                    c none =
                  (st.inodes.set p
                    (some { pino with
                      payload := Payload.dir (es.filter (fun e => !(e.1 == name))),
                      size := (es.filter (fun e => !(e.1 == name))).length * entrySize })).set
                    c none
                rw [hff.2.1]
            cases hcpl : cino.payload with
            | file data2 =>
              simp only [csx730_unlink, hrp, hp, hpl, hfe, hc, hcpl]
              have hpc : p ≠ c := by
                intro he
                have hpd : getInode st p = some pino := hp
                rw [he, hc] at hpd
                have heq : cino = pino := Option.some.inj hpd
                have h2 := hpl
                rw [← heq, hcpl] at h2
                exact Payload.noConfusion h2
              exact hdetach hpc
            | dir ces =>
              cases ces with
              | nil =>
                simp only [csx730_unlink, hrp, hp, hpl, hfe, hc, hcpl]
                have hpc : p ≠ c := by
                  intro he
                  have hpd : getInode st p = some pino := hp
                  rw [he, hc] at hpd
                  have heq : cino = pino := Option.some.inj hpd
                  have h2 := hpl
                  rw [← heq, hcpl] at h2
                  have hes : es = [] := (Payload.dir.inj h2).symm
                  rw [hes] at hfe
                  simp [findEntry] at hfe
                exact hdetach hpc
              | cons e rest =>
                simp only [csx730_unlink, hrp, hp, hpl, hfe, hc, hcpl]
                exact hInv

theorem blocksConsistent_of_invCore (st : VFSState) (h : invCore st) :
    blocksConsistent st := by
  obtain ⟨c1, c2, c3, c4⟩ := h
  refine ⟨c1, c2, c3, ?_⟩
  intro j ino hj b hb
  have hlt := c4 j ino hj b hb
  have h1 : 1 ≤ blockRefs st.inodes b := by
    have hle := refsIn_le_blockRefs st.inodes j b
    rw [hj] at hle
    have hcnt : 1 ≤ ino.blocks.count b := List.count_pos_iff.mpr hb
    simp only [refsIn] at hle
    omega
  have hres : reservedBlocks ≤ b := by
    by_contra hcon
    have := (c2 b (by omega)).2
    omega
  rcases c3 b hres hlt with ⟨_, hr⟩ | ⟨hf, hr⟩
  · omega
  · exact ⟨hres, hlt, hf, hr⟩

theorem reachable_invCore : ∀ st, Reachable st → invCore st := by
  intro st h
  induction h with
  | init n st hinit =>
    unfold csx730_vfs_init at hinit
    by_cases hn : reservedBlocks ≤ n
    · rw [if_pos hn] at hinit
      have heq : initState n = st := Option.some.inj hinit
      rw [← heq]
      exact invCore_init n
    · rw [if_neg hn] at hinit
      exact Option.noConfusion hinit
  | creatStep st path d _ ih => exact creat_core st path d ih
  | openStep st path _ ih =>
    obtain ⟨f1, f2, f3⟩ := open_fields st path
    exact invCore_frame st _ f1 f2 f3 ih
  | closeStep st fd _ ih =>
    obtain ⟨f1, f2, f3⟩ := close_fields st fd
    exact invCore_frame st _ f1 f2 f3 ih
  | seekStep st fd off _ ih =>
    obtain ⟨f1, f2, f3⟩ := seek_fields st fd off
    exact invCore_frame st _ f1 f2 f3 ih
  | readStep st fd len _ ih =>
    obtain ⟨f1, f2, f3⟩ := read_fields st fd len
    exact invCore_frame st _ f1 f2 f3 ih
  | writeStep st fd bytes _ ih => exact write_core st fd bytes ih
  | unlinkStep st path _ ih => exact unlink_core st path ih
  | statStep st path _ ih =>
    obtain ⟨f1, f2, f3⟩ := stat_fields st path
    exact invCore_frame st _ f1 f2 f3 ih
  | fstatStep st fd _ ih =>
    obtain ⟨f1, f2, f3⟩ := fstat_fields st fd
    exact invCore_frame st _ f1 f2 f3 ih
  | statChildStep st fd _ ih =>
    obtain ⟨f1, f2, f3⟩ := statChild_fields st fd
    exact invCore_frame st _ f1 f2 f3 ih
  | statNextStep st fd _ ih =>
    obtain ⟨f1, f2, f3⟩ := statNext_fields st fd
    exact invCore_frame st _ f1 f2 f3 ih
  | pstatsStep st _ ih => exact ih

/-! ## Claim C8 -/

/-- Claim C8: in every state reachable from a successfully initialized file
system by any sequence of API operations (including failing ones), every
block is in exactly one of the states free, allocated-to-exactly-one-inode,
or reserved-control, and no in-use inode's block list refers to a block
that is not allocated to it. -/
theorem c8_block_consistency (st : VFSState) (h : Reachable st) : blocksConsistent st :=
  blocksConsistent_of_invCore st (reachable_invCore st h)

/-- Witness for C8 at a concrete reachable state: the written scenario state. -/
theorem c8_block_consistency_witness : blocksConsistent eg4 :=
  c8_block_consistency eg4
    (Reachable.writeStep eg3 0 [104, 101, 108, 108, 111]
      (Reachable.openStep eg2 [strA, strB]
        (Reachable.creatStep eg1 [strA, strB] false
          (Reachable.creatStep eg0 [strA] true
            (Reachable.init 8 eg0 rfl)))))

/-! ## Claim C6 -/

/-- Claim C6: `alloc` returns the lowest-indexed free block, marks it
allocated and persists the map; it returns none exactly when no free block
exists; and consecutive allocations return strictly increasing indices
(first-fit by index, deterministic). -/
theorem c6_alloc_first_fit :
    (∀ st b st', allocBlock st = some (b, st') →
      st.freeMap.getD b false = true ∧
      (∀ j, j < b → st.freeMap.getD j false = false) ∧
      st'.freeMap = st.freeMap.set b false ∧
      st'.writeCount = st.writeCount + 1 ∧
      st'.inodes = st.inodes ∧ st'.numBlocks = st.numBlocks) ∧
    (∀ st, allocBlock st = none ↔
      ∀ j, j < st.freeMap.length → st.freeMap.getD j false = false) ∧
    (∀ st b st' b2 st'', allocBlock st = some (b, st') →
      allocBlock st' = some (b2, st'') → b < b2) := by
  refine ⟨?_, ?_, ?_⟩
  · intro st b st' h
    obtain ⟨h1, h2, h3, h4⟩ := allocBlock_some st b st' h
    exact ⟨h1, h3, by rw [h4], by rw [h4], by rw [h4], by rw [h4]⟩
  · intro st
    exact allocBlock_none st
  · intro st b st' b2 st'' h h2
    obtain ⟨ha1, ha2, ha3, ha4⟩ := allocBlock_some st b st' h
    obtain ⟨hb1, hb2, hb3, hb4⟩ := allocBlock_some st' b2 st'' h2
    have hfm : st'.freeMap = st.freeMap.set b false := by rw [ha4]
    have hne : b2 ≠ b := by
      intro he
      rw [he, hfm, getD_set_eq _ _ _ _ ha2] at hb1
      exact Bool.noConfusion hb1
    by_contra hcon
    have hlt : b2 < b := by omega
    have := ha3 b2 hlt
    rw [hfm, getD_set_ne _ _ _ _ _ (fun he => hne he.symm)] at hb1
    rw [this] at hb1
    exact Bool.noConfusion hb1

/-- Witness for C6 at the freshly initialized state: block 1 is handed out. -/
theorem c6_alloc_first_fit_witness :
    eg0.freeMap.getD 1 false = true ∧
    (∀ j, j < 1 → eg0.freeMap.getD j false = false) ∧
    eg0a.freeMap = eg0.freeMap.set 1 false ∧
    eg0a.writeCount = eg0.writeCount + 1 ∧
    eg0a.inodes = eg0.inodes ∧ eg0a.numBlocks = eg0.numBlocks :=
  c6_alloc_first_fit.1 eg0 1 eg0a rfl

/-! ## Claim C5 -/

/-- Claim C5: for an open file descriptor, `read` at an offset at or beyond
the current size returns zero bytes (not -1) and never fabricates data; in
general it returns at most `len` bytes and advances the descriptor's
offset by exactly the number of bytes returned. -/
theorem c5_read_eof (st : VFSState) (fd len : Nat) (d : Desc) (ino : Inode)
    (data : List Nat) (hd : getDesc st fd = some d)
    (hi : getInode st d.inodeIdx = some ino) (hpl : ino.payload = Payload.file data) :
    (ino.size ≤ d.offset → (csx730_read st fd len).1 = some []) ∧
    (∀ bs, (csx730_read st fd len).1 = some bs →
      bs.length ≤ len ∧
      getDesc (csx730_read st fd len).2 fd = some { d with offset := d.offset + bs.length }) := by
  have hfdlen : fd < st.fdTable.length := lt_of_getD_some _ _ _ hd
  constructor
  · intro hoff
    simp only [csx730_read, hd, hi, hpl, if_pos hoff]
  · intro bs hbs
    simp only [csx730_read, hd, hi, hpl] at hbs ⊢
    by_cases hoff : ino.size ≤ d.offset
    · rw [if_pos hoff] at hbs ⊢
      have hbse : bs = [] := (Option.some.inj hbs).symm
      subst hbse
      refine ⟨by simp, ?_⟩
      unfold getDesc
      simp only [List.length_nil]
      rw [getD_set_eq _ _ _ _ hfdlen]
    · rw [if_neg hoff] at hbs ⊢
      have hbse : bs = (data.drop d.offset).take (min len (ino.size - d.offset)) :=
        (Option.some.inj hbs).symm
      subst hbse
      constructor
      · calc ((data.drop d.offset).take (min len (ino.size - d.offset))).length
            ≤ min len (ino.size - d.offset) := List.length_take_le _ _
          _ ≤ len := Nat.min_le_left _ _
      · unfold getDesc
        rw [getD_set_eq _ _ _ _ hfdlen]

/-- Witness for C5: reading 7 bytes from the empty file `/a/b` just after
opening it returns zero bytes, and a successful read advances the offset by
the bytes returned. -/
theorem c5_read_eof_witness :
    ((Inode.mk 0 [] (Payload.file [])).size ≤ (Desc.mk 2 0 0).offset →
      (csx730_read eg3 0 7).1 = some []) ∧
    (∀ bs, (csx730_read eg3 0 7).1 = some bs →
      bs.length ≤ 7 ∧
      getDesc (csx730_read eg3 0 7).2 0 =
        some { Desc.mk 2 0 0 with offset := (Desc.mk 2 0 0).offset + bs.length }) :=
  c5_read_eof eg3 0 7 (Desc.mk 2 0 0) (Inode.mk 0 [] (Payload.file [])) [] rfl rfl rfl

/-! ## Claim C10 -/

/-- Claim C10: `stat` and `fstat` leave the file-system state (block count,
free map, inode table, and every open descriptor with its offset and
cursor) unchanged whether they succeed or fail, and `stat_next` changes
nothing except the traversal cursor of the descriptor it is given. -/
theorem c10_stat_frame :
    (∀ st path, (csx730_stat st path).2.numBlocks = st.numBlocks ∧
      (csx730_stat st path).2.freeMap = st.freeMap ∧
      (csx730_stat st path).2.inodes = st.inodes ∧
      (csx730_stat st path).2.fdTable = st.fdTable) ∧
    (∀ st fd, (csx730_fstat st fd).2.numBlocks = st.numBlocks ∧
      (csx730_fstat st fd).2.freeMap = st.freeMap ∧
      (csx730_fstat st fd).2.inodes = st.inodes ∧
      (csx730_fstat st fd).2.fdTable = st.fdTable) ∧
    (∀ st fd, (csx730_stat_next st fd).2.numBlocks = st.numBlocks ∧
      (csx730_stat_next st fd).2.freeMap = st.freeMap ∧
      (csx730_stat_next st fd).2.inodes = st.inodes ∧
      (∀ g, g ≠ fd →
        (csx730_stat_next st fd).2.fdTable.getD g none = st.fdTable.getD g none) ∧
      (getDesc (csx730_stat_next st fd).2 fd).map (fun d => (d.inodeIdx, d.offset)) =
        (getDesc st fd).map (fun d => (d.inodeIdx, d.offset))) := by
  refine ⟨?_, ?_, ?_⟩
  · intro st path
    unfold csx730_stat
    repeat' first
    | exact ⟨rfl, rfl, rfl, rfl⟩
    | split
  · intro st fd
    unfold csx730_fstat
    repeat' first
    | exact ⟨rfl, rfl, rfl, rfl⟩
    | split
  · intro st fd
    cases hd : getDesc st fd with
    | none =>
      have heq : csx730_stat_next st fd = (none, st) := by
        simp only [csx730_stat_next, hd]
      rw [heq]
      exact ⟨rfl, rfl, rfl, fun g _ => rfl, congrArg _ hd⟩
    | some d =>
      have hfdlen : fd < st.fdTable.length := lt_of_getD_some _ _ _ hd
      cases hi : getInode st d.inodeIdx with
      | none =>
        have heq : csx730_stat_next st fd = (none, st) := by
          simp only [csx730_stat_next, hd, hi]
        rw [heq]
        exact ⟨rfl, rfl, rfl, fun g _ => rfl, congrArg _ hd⟩
      | some ino =>
        cases hpl : ino.payload with
        | file data =>
          have heq : csx730_stat_next st fd = (none, st) := by
            simp only [csx730_stat_next, hd, hi, hpl]
          rw [heq]
          exact ⟨rfl, rfl, rfl, fun g _ => rfl, congrArg _ hd⟩
        | dir es =>
          cases hcur : es[d.cursor]? with
          | none =>
            have heq : csx730_stat_next st fd = (none, st) := by
              simp only [csx730_stat_next, hd, hi, hpl, hcur]
            rw [heq]
            exact ⟨rfl, rfl, rfl, fun g _ => rfl, congrArg _ hd⟩
          | some e =>
            cases hci : getInode st e.2 with
            | none =>
              have heq : csx730_stat_next st fd = (none, st) := by
                simp only [csx730_stat_next, hd, hi, hpl, hcur, hci]
              rw [heq]
              exact ⟨rfl, rfl, rfl, fun g _ => rfl, congrArg _ hd⟩
            | some cino =>
              have heq : csx730_stat_next st fd = (some cino,
                  { st with
                    fdTable := st.fdTable.set fd (some { d with cursor := d.cursor + 1 }),
                    readCount := st.readCount + 1 }) := by
                simp only [csx730_stat_next, hd, hi, hpl, hcur, hci]
              rw [heq]
              refine ⟨rfl, rfl, rfl, ?_, ?_⟩
              · intro g hg
                exact getD_set_ne _ _ _ _ _ (fun he => hg he.symm)
              · show ((st.fdTable.set fd (some { d with cursor := d.cursor + 1 })).getD
                    fd none).map (fun d => (d.inodeIdx, d.offset)) =
                  (some d).map (fun d => (d.inodeIdx, d.offset))
                rw [getD_set_eq _ _ _ _ hfdlen]
                rfl

/-- Witness for C10 at concrete states: stating `/a`, fstating descriptor 0,
and stepping the traversal cursor of the directory descriptor 1. -/
theorem c10_stat_frame_witness :
    ((csx730_stat eg4 [strA]).2.numBlocks = eg4.numBlocks ∧
      (csx730_stat eg4 [strA]).2.freeMap = eg4.freeMap ∧
      (csx730_stat eg4 [strA]).2.inodes = eg4.inodes ∧
      (csx730_stat eg4 [strA]).2.fdTable = eg4.fdTable) ∧
    ((csx730_fstat eg4 0).2.numBlocks = eg4.numBlocks ∧
      (csx730_fstat eg4 0).2.freeMap = eg4.freeMap ∧
      (csx730_fstat eg4 0).2.inodes = eg4.inodes ∧
      (csx730_fstat eg4 0).2.fdTable = eg4.fdTable) ∧
    ((csx730_stat_next eg5 1).2.numBlocks = eg5.numBlocks ∧
      (csx730_stat_next eg5 1).2.freeMap = eg5.freeMap ∧
      (csx730_stat_next eg5 1).2.inodes = eg5.inodes ∧
      (∀ g, g ≠ 1 →
        (csx730_stat_next eg5 1).2.fdTable.getD g none = eg5.fdTable.getD g none) ∧
      (getDesc (csx730_stat_next eg5 1).2 1).map (fun d => (d.inodeIdx, d.offset)) =
        (getDesc eg5 1).map (fun d => (d.inodeIdx, d.offset))) :=
  ⟨c10_stat_frame.1 eg4 [strA], c10_stat_frame.2.1 eg4 0, c10_stat_frame.2.2 eg5 1⟩

/-! ## Resolution inversion helpers -/

theorem resolveParent_some (st : VFSState) (path : List String) (p : Nat) (name : String)
    (h : resolveParent st path = some (p, name)) :
    path ≠ [] ∧ resolveFrom st 0 path.dropLast = some p ∧ name = path.getLastD emptyStr := by
  cases path with
  | nil => simp [resolveParent] at h
  | cons x xs =>
    simp only [resolveParent] at h
    cases hr : resolveFrom st 0 (x :: xs).dropLast with
    | none => rw [hr] at h; exact Option.noConfusion h
    | some q =>
      rw [hr] at h
      have h2 := Option.some.inj h
      have hq : q = p := congrArg Prod.fst h2
      have hn : (x :: xs).getLastD emptyStr = name := congrArg Prod.snd h2
      refine ⟨by simp, ?_, hn.symm⟩
      exact congrArg some hq

theorem resolve_last_step (st : VFSState) (xs : List String) (nm : String) (c : Nat)
    (h : resolveFrom st 0 (xs ++ [nm]) = some c) :
    ∃ p pino es2, resolveFrom st 0 xs = some p ∧ getInode st p = some pino ∧
      pino.payload = Payload.dir es2 ∧ findEntry es2 nm = some c := by
  rw [resolveFrom_append] at h
  cases hq : resolveFrom st 0 xs with
  | none => rw [hq] at h; exact Option.noConfusion h
  | some p =>
    rw [hq] at h
    simp only [Option.some_bind] at h
    cases hi : getInode st p with
    | none =>
      simp only [resolveFrom, hi] at h
      exact Option.noConfusion h
    | some pino =>
      cases hpl : pino.payload with
      | file data =>
        simp only [resolveFrom, hi, hpl] at h
        exact Option.noConfusion h
      | dir es2 =>
        cases hfe : findEntry es2 nm with
        | none =>
          simp only [resolveFrom, hi, hpl, hfe] at h
          exact Option.noConfusion h
        | some v =>
          simp only [resolveFrom, hi, hpl, hfe] at h
          have : v = c := Option.some.inj h
          exact ⟨p, pino, es2, rfl, hi, hpl, by rw [hfe, this]⟩

/-! ## Claim C2 -/

/-- Claim C2: `creat` on a path whose final name already exists in its
parent always fails, and `open`, `stat`, `unlink` on a path that does not
resolve to an existing in-use inode always fail (open returns -1, the
others false), each leaving the state unchanged. -/
theorem c2_error_returns :
    (∀ st path d p name pino es, resolveParent st path = some (p, name) →
      getInode st p = some pino → pino.payload = Payload.dir es →
      (findEntry es name).isSome = true → csx730_creat st path d = (false, st)) ∧
    (∀ st path, (∀ c, resolve st path = some c → getInode st c = none) →
      csx730_open st path = (none, st)) ∧
    (∀ st path, (∀ c, resolve st path = some c → getInode st c = none) →
      csx730_stat st path = (none, st)) ∧
    (∀ st path, (∀ c, resolve st path = some c → getInode st c = none) →
      csx730_unlink st path = (false, st)) := by
  refine ⟨?_, ?_, ?_, ?_⟩
  · intro st path d p name pino es hrp hp hpl hfe
    cases hfe2 : findEntry es name with
    | none => rw [hfe2] at hfe; exact Bool.noConfusion hfe
    | some v => simp only [csx730_creat, hrp, hp, hpl, hfe2]
  · intro st path hno
    cases hre : resolve st path with
    | none => simp only [csx730_open, hre]
    | some c =>
      have hc := hno c hre
      simp only [csx730_open, hre, hc]
  · intro st path hno
    cases hre : resolve st path with
    | none => simp only [csx730_stat, hre]
    | some c =>
      have hc := hno c hre
      simp only [csx730_stat, hre, hc]
  · intro st path hno
    cases hrp : resolveParent st path with
    | none => simp only [csx730_unlink, hrp]
    | some pr =>
      obtain ⟨p, name⟩ := pr
      cases hp : getInode st p with
      | none => simp only [csx730_unlink, hrp, hp]
      | some pino =>
        cases hpl : pino.payload with
        | file data => simp only [csx730_unlink, hrp, hp, hpl]
        | dir es =>
          cases hfe : findEntry es name with
          | none => simp only [csx730_unlink, hrp, hp, hpl, hfe]
          | some c =>
            obtain ⟨hne, hdl, hnm⟩ := resolveParent_some st path p name hrp
            have hres : resolve st path = some c := by
              unfold resolve
              rw [path_decomp path hne, ← hnm, resolveFrom_append, hdl]
              simp only [Option.some_bind, resolveFrom, hp, hpl, hfe]
            have hc := hno c hres
            simp only [csx730_unlink, hrp, hp, hpl, hfe, hc]

/-- Witness for C2: creating `/a` again fails in the scenario state, and
open, stat, unlink of the absent `/a/z` all fail there. -/
theorem c2_error_returns_witness :
    csx730_creat eg2 [strA] true = (false, eg2) ∧
    csx730_open eg2 [strA, strF] = (none, eg2) ∧
    csx730_stat eg2 [strA, strF] = (none, eg2) ∧
    csx730_unlink eg2 [strA, strF] = (false, eg2) :=
  ⟨c2_error_returns.1 eg2 [strA] true 0 strA
      (Inode.mk 4 [1] (Payload.dir [(strA, 1)])) [(strA, 1)] rfl rfl rfl rfl,
    c2_error_returns.2.1 eg2 [strA, strF] (fun c hc => by
      rw [show resolve eg2 [strA, strF] = none from rfl] at hc
      exact Option.noConfusion hc),
    c2_error_returns.2.2.1 eg2 [strA, strF] (fun c hc => by
      rw [show resolve eg2 [strA, strF] = none from rfl] at hc
      exact Option.noConfusion hc),
    c2_error_returns.2.2.2 eg2 [strA, strF] (fun c hc => by
      rw [show resolve eg2 [strA, strF] = none from rfl] at hc
      exact Option.noConfusion hc)⟩

/-! ## Claim C3 -/

/-- Claim C3: `unlink` on a path resolving to a directory that still has at
least one entry fails and returns the state entirely unchanged — the
directory, its entries, and everything reachable from it are exactly as
before (failure is atomic). -/
theorem c3_unlink_nonempty_dir (st : VFSState) (path : List String) (c : Nat)
    (ino : Inode) (es : List (String × Nat)) (hres : resolve st path = some c)
    (hc : getInode st c = some ino) (hpl : ino.payload = Payload.dir es)
    (hne : es ≠ []) : csx730_unlink st path = (false, st) := by
  cases hpath : path with
  | nil => simp only [csx730_unlink, resolveParent]
  | cons x xs =>
    subst hpath
    have hdec := path_decomp (x :: xs) (by simp)
    have hres2 : resolveFrom st 0 ((x :: xs).dropLast ++ [(x :: xs).getLastD emptyStr])
        = some c := by
      rw [← hdec]
      exact hres
    obtain ⟨p, pino, es2, hdl, hp, hpl2, hfe⟩ :=
      resolve_last_step st (x :: xs).dropLast ((x :: xs).getLastD emptyStr) c hres2
    have hrp : resolveParent st (x :: xs) = some (p, (x :: xs).getLastD emptyStr) := by
      simp only [resolveParent, hdl]
    cases hes : es with
    | nil => exact absurd hes hne
    | cons e rest =>
      rw [hes] at hpl
      simp only [csx730_unlink, hrp, hp, hpl2, hfe, hc, hpl]

/-- Witness for C3: unlinking the non-empty directory `/a` fails and leaves
the state untouched. -/
theorem c3_unlink_nonempty_dir_witness : csx730_unlink eg2 [strA] = (false, eg2) :=
  c3_unlink_nonempty_dir eg2 [strA] 1 (Inode.mk 4 [2] (Payload.dir [(strB, 2)]))
    [(strB, 2)] rfl rfl rfl (by simp)

/-! ## Claim C4 -/

theorem statNextSeq_spec : ∀ (n : Nat) (st : VFSState) (fd : Nat) (d : Desc)
    (es : List (String × Nat)) (ino : Inode),
    getDesc st fd = some d → getInode st d.inodeIdx = some ino →
    ino.payload = Payload.dir es →
    (∀ e ∈ es, (getInode st e.2).isSome = true) →
    es.length - d.cursor = n →
    (statNextSeq st fd (n + 1)).1 =
      (es.drop d.cursor).map (fun e => getInode st e.2) ++ [none] := by
  intro n
  induction n with
  | zero =>
    intro st fd d es ino hd hi hpl hch hn
    have hcur : es[d.cursor]? = none := by
      apply List.getElem?_eq_none
      omega
    have hstep : csx730_stat_next st fd = (none, st) := by
      simp only [csx730_stat_next, hd, hi, hpl, hcur]
    have hdrop : es.drop d.cursor = [] := List.drop_eq_nil_of_le (by omega)
    simp only [statNextSeq, hstep, hdrop, List.map_nil, List.nil_append]
  | succ m ih =>
    intro st fd d es ino hd hi hpl hch hn
    have hfdlen : fd < st.fdTable.length := lt_of_getD_some _ _ _ hd
    have hlt : d.cursor < es.length := by omega
    have hcur : es[d.cursor]? = some es[d.cursor] := List.getElem?_eq_getElem hlt
    have hmem : es[d.cursor] ∈ es := List.getElem_mem hlt
    obtain ⟨cino, hcino⟩ := Option.isSome_iff_exists.mp (hch _ hmem)
    have hstep : csx730_stat_next st fd = (some cino,
        { st with
          fdTable := st.fdTable.set fd (some { d with cursor := d.cursor + 1 }),
          readCount := st.readCount + 1 }) := by
      simp only [csx730_stat_next, hd, hi, hpl, hcur, hcino]
    have hd' : getDesc { st with
        fdTable := st.fdTable.set fd (some { d with cursor := d.cursor + 1 }),
        readCount := st.readCount + 1 } fd = some { d with cursor := d.cursor + 1 } := by
      unfold getDesc
      exact getD_set_eq _ _ _ _ hfdlen
    have hrec := ih { st with
        fdTable := st.fdTable.set fd (some { d with cursor := d.cursor + 1 }),
        readCount := st.readCount + 1 } fd { d with cursor := d.cursor + 1 } es ino
      hd' hi hpl hch (by simp only []; omega)
    have hunf : statNextSeq st fd (m + 1 + 1) = ((some cino) ::
        (statNextSeq { st with
          fdTable := st.fdTable.set fd (some { d with cursor := d.cursor + 1 }),
          readCount := st.readCount + 1 } fd (m + 1)).1,
        (statNextSeq { st with
          fdTable := st.fdTable.set fd (some { d with cursor := d.cursor + 1 }),
          readCount := st.readCount + 1 } fd (m + 1)).2) := by
      simp only [statNextSeq, hstep]
    rw [hunf]
    show some cino :: _ = _
    rw [hrec]
    rw [List.drop_eq_getElem_cons hlt, List.map_cons]
    rw [show getInode st es[d.cursor].2 = some cino from hcino]
    rfl

/-- Claim C4: on an open directory descriptor for a directory with exactly
`N` children, `stat_child` stats the first child, the following `N` calls
to `stat_next` return the children's inodes exactly once each in storage
order, and the `(N+1)`-th `stat_next` call fails (EndOfDirectory); for
`N = 0` the initial `stat_child` itself fails. -/
theorem c4_directory_traversal (st : VFSState) (fd : Nat) (d : Desc) (ino : Inode)
    (es : List (String × Nat)) (hd : getDesc st fd = some d)
    (hi : getInode st d.inodeIdx = some ino) (hpl : ino.payload = Payload.dir es)
    (hch : ∀ e ∈ es, (getInode st e.2).isSome = true) :
    (es = [] → (csx730_stat_child st fd).1 = none) ∧
    (es ≠ [] →
      (csx730_stat_child st fd).1 = getInode st (es.headD defaultEntry).2 ∧
      (statNextSeq (csx730_stat_child st fd).2 fd (es.length + 1)).1 =
        es.map (fun e => getInode st e.2) ++ [none]) := by
  constructor
  · intro hes
    subst hes
    simp only [csx730_stat_child, hd, hi, hpl]
  · intro hes
    cases hese : es with
    | nil => exact absurd hese hes
    | cons e0 rest =>
      subst hese
      have hfdlen : fd < st.fdTable.length := lt_of_getD_some _ _ _ hd
      have hmem0 : e0 ∈ e0 :: rest := List.mem_cons_self e0 rest
      obtain ⟨cino0, hcino0⟩ := Option.isSome_iff_exists.mp (hch e0 hmem0)
      obtain ⟨n0, c0⟩ := e0
      have hstep : csx730_stat_child st fd = (some cino0,
          { st with
            fdTable := st.fdTable.set fd (some { d with cursor := 0 }),
            readCount := st.readCount + 1 }) := by
        simp only [csx730_stat_child, hd, hi, hpl, hcino0]
      rw [hstep]
      constructor
      · show some cino0 = getInode st c0
        rw [hcino0]
      · have hd' : getDesc { st with
            fdTable := st.fdTable.set fd (some { d with cursor := 0 }),
            readCount := st.readCount + 1 } fd = some { d with cursor := 0 } := by
          unfold getDesc
          exact getD_set_eq _ _ _ _ hfdlen
        have := statNextSeq_spec (((n0, c0) :: rest).length - 0)
          { st with
            fdTable := st.fdTable.set fd (some { d with cursor := 0 }),
            readCount := st.readCount + 1 } fd { d with cursor := 0 }
          ((n0, c0) :: rest) ino hd' hi hpl hch rfl
        simp only [Nat.sub_zero] at this
        rw [this]
        rfl

/-- Witness for C4: traversing the directory `/a` with one child via
descriptor 1 in the written scenario state. -/
theorem c4_directory_traversal_witness :
    ([(strB, 2)] = ([] : List (String × Nat)) → (csx730_stat_child eg5 1).1 = none) ∧
    ([(strB, 2)] ≠ ([] : List (String × Nat)) →
      (csx730_stat_child eg5 1).1 = getInode eg5 ([(strB, 2)].headD defaultEntry).2 ∧
      (statNextSeq (csx730_stat_child eg5 1).2 1 ([(strB, 2)].length + 1)).1 =
        [(strB, 2)].map (fun e => getInode eg5 e.2) ++ [none]) :=
  c4_directory_traversal eg5 1 (Desc.mk 1 0 0)
    (Inode.mk 4 [2] (Payload.dir [(strB, 2)])) [(strB, 2)] rfl rfl rfl (by decide)

/-! ## Claim C9 -/

theorem writeInode_size (ino : Inode) (data : List Nat) (off : Nat)
    (bytes bs : List Nat) : (writeInode ino data off bytes bs).size =
      if min bytes.length ((ino.blocks ++ bs).length * blockSize - off) = 0 then ino.size
      else max ino.size (off + min bytes.length ((ino.blocks ++ bs).length * blockSize - off)) := by
  simp only [writeInode]
  by_cases h : min bytes.length ((ino.blocks ++ bs).length * blockSize - off) = 0
  · rw [if_pos h, if_pos h]
  · rw [if_neg h, if_neg h]

theorem le_blocksForBytes_mul (n : Nat) : n ≤ blocksForBytes n * blockSize := by
  show n ≤ ((n + 16 - 1) / 16) * 16
  omega

theorem write_at_file (st : VFSState) (idx off : Nat) (bytes : List Nat) (ino : Inode)
    (data : List Nat) (hi : getInode st idx = some ino)
    (hpl : ino.payload = Payload.file data) :
    ∃ st1 bs ok, allocMany st (if bytes.length = 0 then 0
        else blocksForBytes (off + bytes.length) - ino.blocks.length) = (st1, bs, ok) ∧
      write_at st idx off bytes =
        ({ st1 with inodes := st1.inodes.set idx (some (writeInode ino data off bytes bs)) },
          min bytes.length ((ino.blocks ++ bs).length * blockSize - off), !ok) := by
  cases hal : allocMany st (if bytes.length = 0 then 0
      else blocksForBytes (off + bytes.length) - ino.blocks.length) with
  | mk st1 r =>
    obtain ⟨bs, ok⟩ := r
    refine ⟨st1, bs, ok, rfl, ?_⟩
    simp only [write_at, hi, hpl, hal]

theorem write_full_of_ok (ino : Inode) (off : Nat) (bytes bs : List Nat)
    (hlen : bytes.length ≠ 0 →
      bs.length = blocksForBytes (off + bytes.length) - ino.blocks.length) :
    min bytes.length ((ino.blocks ++ bs).length * blockSize - off) = bytes.length := by
  by_cases h0 : bytes.length = 0
  · rw [h0]
    exact Nat.min_eq_left (Nat.zero_le _)
  · have hb := hlen h0
    have hcover : blocksForBytes (off + bytes.length) ≤ (ino.blocks ++ bs).length := by
      rw [List.length_append, hb]
      omega
    have hcap : off + bytes.length ≤ (ino.blocks ++ bs).length * blockSize := by
      calc off + bytes.length ≤ blocksForBytes (off + bytes.length) * blockSize :=
            le_blocksForBytes_mul _
        _ ≤ (ino.blocks ++ bs).length * blockSize := Nat.mul_le_mul_right _ hcover
    exact Nat.min_eq_left (by omega)

/-- Claim C9: `write` returns -1 exactly when the descriptor is not open,
refers to a directory, or block allocation fails with zero bytes written;
on success it returns the bytes written, the new size is the old size
extended to cover the written range (so `offset+len` beyond the old size
extends the file), and the descriptor's offset advances by exactly the
bytes written (all of them when no allocation failure occurred). -/
theorem c9_write_contract (st : VFSState) (fd : Nat) (bytes : List Nat) :
    ((csx730_write st fd bytes).1 = none ↔
      fdOpenB st fd = false ∨ fdIsDir st fd = true ∨
      (∃ d, getDesc st fd = some d ∧
        (write_at st d.inodeIdx d.offset bytes).2.1 = 0 ∧
        (write_at st d.inodeIdx d.offset bytes).2.2 = true)) ∧
    (∀ w, (csx730_write st fd bytes).1 = some w →
      w ≤ bytes.length ∧
      ∃ d ino, getDesc st fd = some d ∧ getInode st d.inodeIdx = some ino ∧
        getDesc (csx730_write st fd bytes).2 fd = some { d with offset := d.offset + w } ∧
        (∃ ino', getInode (csx730_write st fd bytes).2 d.inodeIdx = some ino' ∧
          ino'.size = if w = 0 then ino.size else max ino.size (d.offset + w)) ∧
        ((write_at st d.inodeIdx d.offset bytes).2.2 = false → w = bytes.length)) := by
  cases hd : getDesc st fd with
  | none =>
    have hw : csx730_write st fd bytes = (none, st) := by
      simp only [csx730_write, hd]
    rw [hw]
    constructor
    · refine iff_of_true rfl (Or.inl ?_)
      unfold fdOpenB
      rw [hd]
    · intro w hsome
      exact Option.noConfusion hsome
  | some d =>
    have hfdlen : fd < st.fdTable.length := lt_of_getD_some _ _ _ hd
    cases hi : getInode st d.inodeIdx with
    | none =>
      have hw : csx730_write st fd bytes = (none, st) := by
        simp only [csx730_write, hd, hi]
      rw [hw]
      constructor
      · refine iff_of_true rfl (Or.inl ?_)
        unfold fdOpenB
        rw [hd]
        show (getInode st d.inodeIdx).isSome = false
        rw [hi]
        rfl
      · intro w hsome
        exact Option.noConfusion hsome
    | some ino =>
      have hidxlen : d.inodeIdx < st.inodes.length := lt_of_getD_some _ _ _ hi
      cases hpl : ino.payload with
      | dir es =>
        have hw : csx730_write st fd bytes = (none, st) := by
          simp only [csx730_write, hd, hi, hpl]
        rw [hw]
        constructor
        · refine iff_of_true rfl (Or.inr (Or.inl ?_))
          unfold fdIsDir
          rw [hd]
          show (match getInode st d.inodeIdx with
            | none => false
            | some ino => ino.isDir) = true
          rw [hi]
          show ino.isDir = true
          unfold Inode.isDir
          rw [hpl]
        · intro w hsome
          exact Option.noConfusion hsome
      | file data =>
        obtain ⟨st1, bs, ok, hal, hwa⟩ :=
          write_at_file st d.inodeIdx d.offset bytes ino data hi hpl
        obtain ⟨ha1, ha2, ha3, ha4, ha5, ha6, ha7⟩ := allocMany_spec _ st st1 bs ok hal
        by_cases hcond : ((!ok) && (min bytes.length
            ((ino.blocks ++ bs).length * blockSize - d.offset)) == 0) = true
        · have hw : csx730_write st fd bytes = (none, { st1 with inodes := st1.inodes.set d.inodeIdx (some (writeInode ino data d.offset bytes bs)) }) := by
            simp only [csx730_write, hd, hi, hpl, hwa]
            rw [if_pos hcond]
          rw [hw]
          obtain ⟨hnok, hw0⟩ := Bool.and_eq_true_iff.mp hcond
          constructor
          · refine iff_of_true rfl (Or.inr (Or.inr ⟨d, rfl, ?_, ?_⟩))
            · rw [hwa]
              show min bytes.length ((ino.blocks ++ bs).length * blockSize - d.offset) = 0
              simpa using hw0
            · rw [hwa]
              show (!ok) = true
              exact hnok
          · intro w hsome
            exact Option.noConfusion hsome
        · have hw : csx730_write st fd bytes = (some (min bytes.length ((ino.blocks ++ bs).length * blockSize - d.offset)), { st1 with inodes := st1.inodes.set d.inodeIdx (some (writeInode ino data d.offset bytes bs)), fdTable := st1.fdTable.set fd (some { d with offset := d.offset + min bytes.length ((ino.blocks ++ bs).length * blockSize - d.offset) }) }) := by
            simp only [csx730_write, hd, hi, hpl, hwa]
            rw [if_neg hcond]
          rw [hw]
          constructor
          · refine iff_of_false (by exact Option.noConfusion) ?_
            rintro (hA | hB | ⟨d2, hd2, hw0, haf⟩)
            · unfold fdOpenB at hA
              rw [hd] at hA
              have hA2 : (getInode st d.inodeIdx).isSome = false := hA
              rw [hi] at hA2
              exact Bool.noConfusion hA2
            · unfold fdIsDir at hB
              rw [hd] at hB
              have hB2 : (match getInode st d.inodeIdx with
                | none => false
                | some ino => ino.isDir) = true := hB
              rw [hi] at hB2
              have hB3 : ino.isDir = true := hB2
              unfold Inode.isDir at hB3
              rw [hpl] at hB3
              exact Bool.noConfusion hB3
            · have hdd : d2 = d := (Option.some.inj hd2).symm
              subst hdd
              rw [hwa] at hw0 haf
              simp only at hw0 haf
              apply hcond
              rw [haf, hw0]
              rfl
          · intro w hsome
            have hweq : min bytes.length
                ((ino.blocks ++ bs).length * blockSize - d.offset) = w :=
              Option.some.inj hsome
            refine ⟨by rw [← hweq]; exact Nat.min_le_left _ _, d, ino, rfl, hi, ?_, ?_, ?_⟩
            · show (st1.fdTable.set fd (some { d with offset := d.offset + min bytes.length ((ino.blocks ++ bs).length * blockSize - d.offset) })).getD fd none = some { d with offset := d.offset + w }
              rw [ha3]
              rw [getD_set_eq _ _ _ _ hfdlen, hweq]
            · refine ⟨writeInode ino data d.offset bytes bs, ?_, ?_⟩
              · show (st1.inodes.set d.inodeIdx (some (writeInode ino data d.offset bytes bs))).getD d.inodeIdx none = some (writeInode ino data d.offset bytes bs)
                rw [ha2]
                rw [getD_set_eq _ _ _ _ hidxlen]
              · rw [writeInode_size, hweq]
            · intro haf
              rw [hwa] at haf
              simp only at haf
              have hok : ok = true := by
                cases ok with
                | true => rfl
                | false => exact Bool.noConfusion haf
              rw [← hweq]
              apply write_full_of_ok ino d.offset bytes bs
              intro h0
              rw [ha7 hok, if_neg h0]

/-- Witness for C9: writing 3 bytes to the freshly opened file `/a/b`
succeeds, advances the offset by 3 and sets the size accordingly. -/
theorem c9_write_contract_witness :
    3 ≤ ([1, 2, 3] : List Nat).length ∧
    ∃ d ino, getDesc eg3 0 = some d ∧ getInode eg3 d.inodeIdx = some ino ∧
      getDesc (csx730_write eg3 0 [1, 2, 3]).2 0 = some { d with offset := d.offset + 3 } ∧
      (∃ ino', getInode (csx730_write eg3 0 [1, 2, 3]).2 d.inodeIdx = some ino' ∧
        ino'.size = if 3 = 0 then ino.size else max ino.size (d.offset + 3)) ∧
      ((write_at eg3 d.inodeIdx d.offset [1, 2, 3]).2.2 = false →
        3 = ([1, 2, 3] : List Nat).length) :=
  (c9_write_contract eg3 0 [1, 2, 3]).2 3 rfl

/-! ## Resolution simulation lemmas -/

theorem resolveFrom_shrink (st st' : VFSState) (p c : Nat) (pino pino' cino : Inode)
    (es : List (String × Nat)) (name : String)
    (hp : st.inodes.getD p none = some pino) (hc : st.inodes.getD c none = some cino)
    (hpl : pino.payload = Payload.dir es)
    (hpl' : pino'.payload = Payload.dir (es.filter (fun e => !(e.1 == name))))
    (h3 : st'.inodes = (st.inodes.set p (some pino')).set c none) :
    ∀ (comps : List String) (cur x : Nat),
      resolveFrom st' cur comps = some x → resolveFrom st cur comps = some x := by
  have hplen : p < st.inodes.length := lt_of_getD_some _ _ _ hp
  have hclen : c < st.inodes.length := lt_of_getD_some _ _ _ hc
  intro comps
  induction comps with
  | nil => intro cur x h; exact h
  | cons c2 rest ih =>
    intro cur x h
    cases hgi : getInode st' cur with
    | none =>
      simp only [resolveFrom, hgi] at h
      exact Option.noConfusion h
    | some ino2 =>
      cases hipl : ino2.payload with
      | file data =>
        simp only [resolveFrom, hgi, hipl] at h
        exact Option.noConfusion h
      | dir es3 =>
        cases hfe2 : findEntry es3 c2 with
        | none =>
          simp only [resolveFrom, hgi, hipl, hfe2] at h
          exact Option.noConfusion h
        | some nxt =>
          simp only [resolveFrom, hgi, hipl, hfe2] at h
          have hrec := ih nxt x h
          by_cases hcc : cur = c
          · exfalso
            subst hcc
            unfold getInode at hgi
            rw [h3, getD_set_eq _ _ _ _ (by simpa using hclen)] at hgi
            exact Option.noConfusion hgi
          · by_cases hcp : cur = p
            · subst hcp
              unfold getInode at hgi
              rw [h3, getD_set_ne _ _ _ _ _ (fun he => hcc he.symm),
                getD_set_eq _ _ _ _ hplen] at hgi
              have hig : ino2 = pino' := (Option.some.inj hgi).symm
              subst hig
              rw [hpl'] at hipl
              have hesf : es3 = es.filter (fun e => !(e.1 == name)) :=
                (Payload.dir.inj hipl).symm
              subst hesf
              have hfes := findEntry_filter_mono es name c2 nxt hfe2
              show resolveFrom st cur (c2 :: rest) = some x
              simp only [resolveFrom, show getInode st cur = some pino from hp, hpl, hfes]
              exact hrec
            · have hsame : getInode st cur = some ino2 := by
                unfold getInode at hgi ⊢
                rw [h3, getD_set_ne _ _ _ _ _ (fun he => hcc he.symm),
                  getD_set_ne _ _ _ _ _ (fun he => hcp he.symm)] at hgi
                exact hgi
              simp only [resolveFrom, hsame, hipl, hfe2]
              exact hrec

theorem resolveFrom_grow (st st' : VFSState) (p s : Nat) (pino pino' child : Inode)
    (es : List (String × Nat)) (name : String)
    (hp : st.inodes.getD p none = some pino) (hs : st.inodes.getD s none = none)
    (hpl : pino.payload = Payload.dir es)
    (hpl' : pino'.payload = Payload.dir (es ++ [(name, s)]))
    (h3 : st'.inodes = (st.inodes.set p (some pino')).set s (some child)) :
    ∀ (comps : List String) (cur x : Nat),
      resolveFrom st cur comps = some x → resolveFrom st' cur comps = some x := by
  have hplen : p < st.inodes.length := lt_of_getD_some _ _ _ hp
  have hps : p ≠ s := by
    intro he
    rw [he, hs] at hp
    exact Option.noConfusion hp
  intro comps
  induction comps with
  | nil => intro cur x h; exact h
  | cons c2 rest ih =>
    intro cur x h
    cases hgi : getInode st cur with
    | none =>
      simp only [resolveFrom, hgi] at h
      exact Option.noConfusion h
    | some ino2 =>
      cases hipl : ino2.payload with
      | file data =>
        simp only [resolveFrom, hgi, hipl] at h
        exact Option.noConfusion h
      | dir es3 =>
        cases hfe2 : findEntry es3 c2 with
        | none =>
          simp only [resolveFrom, hgi, hipl, hfe2] at h
          exact Option.noConfusion h
        | some nxt =>
          simp only [resolveFrom, hgi, hipl, hfe2] at h
          have hrec := ih nxt x h
          have hcs : cur ≠ s := by
            intro he
            rw [he] at hgi
            unfold getInode at hgi
            rw [hs] at hgi
            exact Option.noConfusion hgi
          by_cases hcp : cur = p
          · subst hcp
            have hig : ino2 = pino := by
              unfold getInode at hgi
              rw [hp] at hgi
              exact (Option.some.inj hgi).symm
            subst hig
            rw [hpl] at hipl
            have hesf : es3 = es := (Payload.dir.inj hipl).symm
            subst hesf
            have hgi' : getInode st' cur = some pino' := by
              unfold getInode
              rw [h3, getD_set_ne _ _ _ _ _ (fun he => hps he.symm),
                getD_set_eq _ _ _ _ hplen]
            simp only [resolveFrom, hgi', hpl',
              findEntry_append_left es3 [(name, s)] c2 nxt hfe2]
            exact hrec
          · have hsame : getInode st' cur = some ino2 := by
              unfold getInode
              rw [h3, getD_set_ne _ _ _ _ _ (fun he => hcs he.symm),
                getD_set_ne _ _ _ _ _ (fun he => hcp he.symm)]
              exact hgi
            simp only [resolveFrom, hsame, hipl, hfe2]
            exact hrec

/-! ## Claim C7 -/

/-- Claim C7: after a successful `unlink` of a path resolving to a file,
every data block the file's inode owned is marked free in the free-block
map, the inode slot is no longer in use, and `open` on the same path
returns -1. -/
theorem c7_unlink_frees (st : VFSState) (path : List String) (c : Nat) (cino : Inode)
    (data : List Nat) (st' : VFSState)
    (hres : resolve st path = some c) (hc : getInode st c = some cino)
    (hcpl : cino.payload = Payload.file data)
    (hblk : ∀ b ∈ cino.blocks, reservedBlocks ≤ b ∧ b < st.freeMap.length)
    (hun : csx730_unlink st path = (true, st')) :
    (∀ b ∈ cino.blocks, st'.freeMap.getD b false = true) ∧
    getInode st' c = none ∧
    (csx730_open st' path).1 = none := by
  have hclen : c < st.inodes.length := lt_of_getD_some _ _ _ hc
  cases hpath : path with
  | nil =>
    subst hpath
    have : csx730_unlink st [] = (false, st) := by
      simp only [csx730_unlink, resolveParent]
    rw [this] at hun
    exact absurd (congrArg Prod.fst hun) (by simp)
  | cons x xs =>
    subst hpath
    have hdec := path_decomp (x :: xs) (by simp)
    have hres2 : resolveFrom st 0 ((x :: xs).dropLast ++ [(x :: xs).getLastD emptyStr])
        = some c := by
      rw [← hdec]
      exact hres
    obtain ⟨p, pino, es2, hdl, hp, hpl2, hfe⟩ :=
      resolve_last_step st (x :: xs).dropLast ((x :: xs).getLastD emptyStr) c hres2
    have hplen : p < st.inodes.length := lt_of_getD_some _ _ _ hp
    have hpc : p ≠ c := by
      intro he
      have hpd : getInode st p = some pino := hp
      rw [he, hc] at hpd
      have heq : cino = pino := Option.some.inj hpd
      have h2 := hpl2
      rw [← heq, hcpl] at h2
      exact Payload.noConfusion h2
    have hrp : resolveParent st (x :: xs) = some (p, (x :: xs).getLastD emptyStr) := by
      simp only [resolveParent, hdl]
    have hunl : csx730_unlink st (x :: xs) =
        (true, unlinkApply st p pino es2 ((x :: xs).getLastD emptyStr) c cino) := by
      simp only [csx730_unlink, hrp, hp, hpl2, hfe, hc, hcpl]
    rw [hunl] at hun
    have hst' : st' = unlinkApply st p pino es2 ((x :: xs).getLastD emptyStr) c cino :=
      (congrArg Prod.snd hun).symm
    subst hst'
    have hff := freeAll_fields cino.blocks st
    have hfm : (unlinkApply st p pino es2 ((x :: xs).getLastD emptyStr) c cino).freeMap
        = (freeAll st cino.blocks).freeMap := rfl
    have hinos : (unlinkApply st p pino es2 ((x :: xs).getLastD emptyStr) c cino).inodes
        = (st.inodes.set p (some { pino with
            payload := Payload.dir
              (es2.filter (fun e => !(e.1 == (x :: xs).getLastD emptyStr))),
            size := (es2.filter
              (fun e => !(e.1 == (x :: xs).getLastD emptyStr))).length * entrySize })).set
          c none := by
      show ((freeAll st cino.blocks).inodes.set p _).set c none = _
      rw [hff.2.1]
    refine ⟨?_, ?_, ?_⟩
    · intro b hb
      rw [hfm]
      exact freeAll_getD_free cino.blocks st b hb (hblk b hb).1 (hblk b hb).2
    · unfold getInode
      rw [hinos, getD_set_eq _ _ _ _ (by simpa using hclen)]
    · cases hro : resolve (unlinkApply st p pino es2 ((x :: xs).getLastD emptyStr) c cino)
          (x :: xs) with
      | none =>
        simp only [csx730_open, hro]
      | some y =>
        exfalso
        have hro2 : resolveFrom
            (unlinkApply st p pino es2 ((x :: xs).getLastD emptyStr) c cino) 0
            ((x :: xs).dropLast ++ [(x :: xs).getLastD emptyStr]) = some y := by
          rw [← hdec]
          exact hro
        obtain ⟨q, qino, es3, hdl', hq, hql, hfq⟩ := resolve_last_step _ _ _ _ hro2
        have hdlst : resolveFrom st 0 (x :: xs).dropLast = some q := by
          apply resolveFrom_shrink st _ p c pino _ cino es2
            ((x :: xs).getLastD emptyStr) hp hc hpl2 rfl hinos _ _ _ hdl'
        have hqp : q = p := by
          rw [hdl] at hdlst
          exact (Option.some.inj hdlst).symm
        rw [hqp] at hq
        have hq2 : getInode (unlinkApply st p pino es2 ((x :: xs).getLastD emptyStr) c cino)
            p = some { pino with
              payload := Payload.dir
                (es2.filter (fun e => !(e.1 == (x :: xs).getLastD emptyStr))),
              size := (es2.filter
                (fun e => !(e.1 == (x :: xs).getLastD emptyStr))).length * entrySize } := by
          unfold getInode
          rw [hinos, getD_set_ne _ _ _ _ _ (fun he => hpc he.symm),
            getD_set_eq _ _ _ _ hplen]
        rw [hq2] at hq
        have hqe : qino = _ := (Option.some.inj hq).symm
        rw [hqe] at hql
        have hes3 : es3 = es2.filter (fun e => !(e.1 == (x :: xs).getLastD emptyStr)) :=
          (Payload.dir.inj hql).symm
        rw [hes3, findEntry_filter_self] at hfq
        exact Option.noConfusion hfq

/-- Witness for C7: unlinking `/a/b` in the written scenario frees its data
block, clears its inode slot, and makes re-opening fail. -/
theorem c7_unlink_frees_witness :
    (∀ b ∈ (Inode.mk 5 [3] (Payload.file [104, 101, 108, 108, 111])).blocks,
      egU.freeMap.getD b false = true) ∧
    getInode egU 2 = none ∧
    (csx730_open egU [strA, strB]).1 = none :=
  c7_unlink_frees eg4 [strA, strB] 2
    (Inode.mk 5 [3] (Payload.file [104, 101, 108, 108, 111]))
    [104, 101, 108, 108, 111] egU rfl rfl rfl (by decide) rfl

/-! ## Claim C1 -/

theorem creat_success (st st1 : VFSState) (path : List String) (d : Bool)
    (h : csx730_creat st path d = (true, st1)) :
    ∃ p name pino es s stA bs,
      resolveParent st path = some (p, name) ∧ getInode st p = some pino ∧
      pino.payload = Payload.dir es ∧ findEntry es name = none ∧
      firstIdx Option.isNone st.inodes = some s ∧
      allocMany st (dirBlocksFor (es.length + 1) - pino.blocks.length) = (stA, bs, true) ∧
      st1 = creatApply stA p pino es name s bs d := by
  cases hrp : resolveParent st path with
  | none =>
    simp only [csx730_creat, hrp] at h
    exact absurd (congrArg Prod.fst h) (by simp)
  | some pr =>
    obtain ⟨p, name⟩ := pr
    cases hp : getInode st p with
    | none =>
      simp only [csx730_creat, hrp, hp] at h
      exact absurd (congrArg Prod.fst h) (by simp)
    | some pino =>
      cases hpl : pino.payload with
      | file data =>
        simp only [csx730_creat, hrp, hp, hpl] at h
        exact absurd (congrArg Prod.fst h) (by simp)
      | dir es =>
        cases hfe : findEntry es name with
        | some v =>
          simp only [csx730_creat, hrp, hp, hpl, hfe] at h
          exact absurd (congrArg Prod.fst h) (by simp)
        | none =>
          cases hs : firstIdx Option.isNone st.inodes with
          | none =>
            simp only [csx730_creat, hrp, hp, hpl, hfe, hs] at h
            exact absurd (congrArg Prod.fst h) (by simp)
          | some s =>
            cases hal : allocMany st (dirBlocksFor (es.length + 1) - pino.blocks.length) with
            | mk stA r =>
              obtain ⟨bs, ok⟩ := r
              cases ok with
              | false =>
                simp only [csx730_creat, hrp, hp, hpl, hfe, hs, hal] at h
                exact absurd (congrArg Prod.fst h) (by simp)
              | true =>
                simp only [csx730_creat, hrp, hp, hpl, hfe, hs, hal, if_true] at h
                exact ⟨p, name, pino, es, s, stA, bs, rfl, hp, hpl, hfe, rfl, hal,
                  (congrArg Prod.snd h).symm⟩

theorem open_success (st st2 : VFSState) (path : List String) (fd : Nat)
    (h : csx730_open st path = (some fd, st2)) :
    ∃ idx, resolve st path = some idx ∧ (getInode st idx).isSome = true ∧
      firstIdx Option.isNone st.fdTable = some fd ∧
      st2 = { st with fdTable := st.fdTable.set fd (some (Desc.mk idx 0 0)),
                      readCount := st.readCount + 1 } := by
  cases hre : resolve st path with
  | none =>
    simp only [csx730_open, hre] at h
    exact absurd (congrArg Prod.fst h) (by simp)
  | some idx =>
    cases hgi : getInode st idx with
    | none =>
      simp only [csx730_open, hre, hgi] at h
      exact absurd (congrArg Prod.fst h) (by simp)
    | some ino =>
      cases hfi : firstIdx Option.isNone st.fdTable with
      | none =>
        simp only [csx730_open, hre, hgi, hfi] at h
        exact absurd (congrArg Prod.fst h) (by simp)
      | some fd2 =>
        simp only [csx730_open, hre, hgi, hfi] at h
        have hfd : fd2 = fd := Option.some.inj (congrArg Prod.fst h)
        subst hfd
        refine ⟨idx, rfl, by rw [hgi]; rfl, rfl, (congrArg Prod.snd h).symm⟩

theorem write_seek_read_fresh (st : VFSState) (fd s : Nat) (content : List Nat)
    (hd : getDesc st fd = some (Desc.mk s 0 0))
    (hi : getInode st s = some (newInode false))
    (hfree : blocksForBytes content.length ≤ countTrue st.freeMap) :
    (csx730_write st fd content).1 = some content.length ∧
    (csx730_seek (csx730_write st fd content).2 fd 0).1 = true ∧
    (csx730_read (csx730_seek (csx730_write st fd content).2 fd 0).2 fd
      content.length).1 = some content := by
  have hfdlen : fd < st.fdTable.length := lt_of_getD_some _ _ _ hd
  have hslen : s < st.inodes.length := lt_of_getD_some _ _ _ hi
  have hpl : (newInode false).payload = Payload.file [] := rfl
  obtain ⟨st3, bs2, ok2, hal, hwa⟩ :=
    write_at_file st s 0 content (newInode false) [] hi hpl
  obtain ⟨ha1, ha2, ha3, ha4, ha5, ha6, ha7⟩ := allocMany_spec _ st st3 bs2 ok2 hal
  have hok : ok2 = true := by
    have hto : (if content.length = 0 then 0
        else blocksForBytes (0 + content.length) - (newInode false).blocks.length)
        ≤ countTrue st.freeMap := by
      by_cases h0 : content.length = 0
      · rw [if_pos h0]; omega
      · rw [if_neg h0]
        have hz : blocksForBytes (0 + content.length) = blocksForBytes content.length := by
          rw [Nat.zero_add]
        rw [hz]
        show blocksForBytes content.length - 0 ≤ countTrue st.freeMap
        omega
    have hq := allocMany_ok _ st hto
    rw [hal] at hq
    exact hq
  subst hok
  have hw : min content.length (((newInode false).blocks ++ bs2).length * blockSize - 0)
      = content.length := by
    apply write_full_of_ok
    intro h0
    rw [ha7 rfl, if_neg h0]
  have hwr : csx730_write st fd content = (some content.length,
      { st3 with
        inodes := st3.inodes.set s (some (writeInode (newInode false) [] 0 content bs2)),
        fdTable := st3.fdTable.set fd (some (Desc.mk s (0 + content.length) 0)) }) := by
    simp only [csx730_write, hd, hi, hpl, hwa]
    rw [if_neg (show ¬((!true && ((min content.length
        (((newInode false).blocks ++ bs2).length * blockSize - 0)) == 0)) = true) by simp)]
    rw [hw]
  have hd4 : getDesc (csx730_write st fd content).2 fd
      = some (Desc.mk s (0 + content.length) 0) := by
    rw [hwr]
    show (st3.fdTable.set fd (some (Desc.mk s (0 + content.length) 0))).getD fd none = _
    rw [ha3]
    exact getD_set_eq _ _ _ _ hfdlen
  have hseek : csx730_seek (csx730_write st fd content).2 fd 0 = (true,
      { (csx730_write st fd content).2 with
        fdTable := (csx730_write st fd content).2.fdTable.set fd
          (some (Desc.mk s 0 0)) }) := by
    simp only [csx730_seek, hd4]
  have hd5 : getDesc (csx730_seek (csx730_write st fd content).2 fd 0).2 fd
      = some (Desc.mk s 0 0) := by
    rw [hseek]
    show ((csx730_write st fd content).2.fdTable.set fd
      (some (Desc.mk s 0 0))).getD fd none = some (Desc.mk s 0 0)
    apply getD_set_eq
    rw [hwr]
    show fd < (st3.fdTable.set fd (some (Desc.mk s (0 + content.length) 0))).length
    rw [length_set_eq, ha3]
    exact hfdlen
  have hi5 : getInode (csx730_seek (csx730_write st fd content).2 fd 0).2 s
      = some (writeInode (newInode false) [] 0 content bs2) := by
    rw [hseek]
    show getInode (csx730_write st fd content).2 s = _
    rw [hwr]
    show (st3.inodes.set s
      (some (writeInode (newInode false) [] 0 content bs2))).getD s none = _
    apply getD_set_eq
    rw [ha2]
    exact hslen
  refine ⟨by rw [hwr], by rw [hseek], ?_⟩
  by_cases h0 : content.length = 0
  · have hcontent : content = [] := List.eq_nil_of_length_eq_zero h0
    have hwino : writeInode (newInode false) [] 0 content bs2 =
        { newInode false with blocks := (newInode false).blocks ++ bs2 } := by
      simp only [writeInode]
      rw [if_pos (by rw [h0]; exact Nat.zero_min _)]
    have hpay0 : (writeInode (newInode false) [] 0 content bs2).payload
        = Payload.file [] := by
      rw [hwino]
      rfl
    have hsize0 : (writeInode (newInode false) [] 0 content bs2).size = 0 := by
      rw [hwino]
      rfl
    simp only [csx730_read, hd5, hi5, hpay0, hsize0]
    rw [if_pos (Nat.zero_le _)]
    rw [hcontent]
  · have hne : min content.length
        (((newInode false).blocks ++ bs2).length * blockSize - 0) ≠ 0 := by
      rw [hw]
      exact h0
    have hwino_pay : (writeInode (newInode false) [] 0 content bs2).payload
        = Payload.file content := by
      simp only [writeInode]
      rw [if_neg hne]
      show Payload.file (([] ++ List.replicate (0 - 0) 0).take 0 ++
        content.take (min content.length
          (((newInode false).blocks ++ bs2).length * blockSize - 0)) ++
        ([] ++ List.replicate (0 - 0) 0).drop (0 + min content.length
          (((newInode false).blocks ++ bs2).length * blockSize - 0))) = Payload.file content
      rw [hw]
      simp [List.take_length]
    have hwino_size : (writeInode (newInode false) [] 0 content bs2).size
        = content.length := by
      rw [writeInode_size, if_neg hne, hw]
      show max (newInode false).size (0 + content.length) = content.length
      have hzz : (newInode false).size = 0 := rfl
      rw [hzz]
      omega
    simp only [csx730_read, hd5, hi5, hwino_pay, hwino_size]
    rw [if_neg (show ¬(content.length ≤ 0) by omega)]
    simp [List.drop_zero, Nat.min_self, List.take_length]

/-- Claim C1: for every valid path and byte sequence, after `creat` of the
path and `open` of it yielding `fd` (and with enough free blocks for the
content), `write(fd, content, |content|)` writes all of `content`, and
seeking back to offset 0 and reading the full size returns exactly
`content` (write/read round-trip). -/
theorem c1_write_read_roundtrip (st : VFSState) (path : List String)
    (content : List Nat) (st1 st2 : VFSState) (fd : Nat)
    (hc : csx730_creat st path false = (true, st1))
    (ho : csx730_open st1 path = (some fd, st2))
    (hfree : blocksForBytes content.length ≤ countTrue st2.freeMap) :
    (csx730_write st2 fd content).1 = some content.length ∧
    (csx730_seek (csx730_write st2 fd content).2 fd 0).1 = true ∧
    (csx730_read (csx730_seek (csx730_write st2 fd content).2 fd 0).2 fd
      content.length).1 = some content := by
  obtain ⟨p, name, pino, es, s, stA, bs, hrp, hp, hpl, hfe, hs, hal, hst1⟩ :=
    creat_success st st1 path false hc
  obtain ⟨haa1, haa2, haa3, haa4, haa5, haa6, haa7⟩ := allocMany_spec _ st stA bs true hal
  obtain ⟨hne, hdl, hnm⟩ := resolveParent_some st path p name hrp
  have hsnone : st.inodes.getD s none = none :=
    Option.isNone_iff_eq_none.mp (firstIdx_some_getD Option.isNone none _ _ hs)
  have hslen : s < st.inodes.length := firstIdx_some_lt _ _ _ hs
  have hplen : p < st.inodes.length := lt_of_getD_some _ _ _ hp
  have hps : p ≠ s := by
    intro he
    have hp2 : st.inodes.getD p none = some pino := hp
    rw [he, hsnone] at hp2
    exact Option.noConfusion hp2
  have hst1i : st1.inodes = (st.inodes.set p (some { pino with payload := Payload.dir (es ++ [(name, s)]), blocks := pino.blocks ++ bs, size := (es.length + 1) * entrySize })).set s (some (newInode false)) := by
    rw [hst1]
    show (stA.inodes.set p (some { pino with payload := Payload.dir (es ++ [(name, s)]), blocks := pino.blocks ++ bs, size := (es.length + 1) * entrySize })).set s (some (newInode false)) = _
    rw [haa2]
  have hgrow := resolveFrom_grow st st1 p s pino ({ pino with payload := Payload.dir (es ++ [(name, s)]), blocks := pino.blocks ++ bs, size := (es.length + 1) * entrySize }) (newInode false) es name hp hsnone hpl rfl hst1i
  have hdl1 : resolveFrom st1 0 path.dropLast = some p := hgrow _ 0 p hdl
  have hp1 : getInode st1 p = some { pino with payload := Payload.dir (es ++ [(name, s)]), blocks := pino.blocks ++ bs, size := (es.length + 1) * entrySize } := by
    unfold getInode
    rw [hst1i, getD_set_ne _ _ _ _ _ (fun he => hps he.symm), getD_set_eq _ _ _ _ hplen]
  have hstep : resolveFrom st1 0 path = some s := by
    rw [path_decomp path hne, ← hnm, resolveFrom_append, hdl1]
    simp only [Option.some_bind, resolveFrom, hp1, findEntry_append_self es name s hfe]
  obtain ⟨idx, hre1, hgi1, hfi1, hst2⟩ := open_success st1 st2 path fd ho
  have hidx : idx = s := by
    unfold resolve at hre1
    rw [hstep] at hre1
    exact (Option.some.inj hre1).symm
  rw [hidx] at hst2
  have hfdlen1 : fd < st1.fdTable.length := firstIdx_some_lt _ _ _ hfi1
  have hd2 : getDesc st2 fd = some (Desc.mk s 0 0) := by
    rw [hst2]
    show (st1.fdTable.set fd (some (Desc.mk s 0 0))).getD fd none = _
    exact getD_set_eq _ _ _ _ hfdlen1
  have hi2 : getInode st2 s = some (newInode false) := by
    rw [hst2]
    show st1.inodes.getD s none = _
    rw [hst1i]
    exact getD_set_eq _ _ _ _ (by simpa using hslen)
  exact write_seek_read_fresh st2 fd s content hd2 hi2 hfree

/-- Witness for C1: the spec section 8 scenario — write `hello` to `/a/b`,
seek to 0, read it back. -/
theorem c1_write_read_roundtrip_witness :
    (csx730_write eg3 0 [104, 101, 108, 108, 111]).1 =
      some ([104, 101, 108, 108, 111] : List Nat).length ∧
    (csx730_seek (csx730_write eg3 0 [104, 101, 108, 108, 111]).2 0 0).1 = true ∧
    (csx730_read (csx730_seek (csx730_write eg3 0 [104, 101, 108, 108, 111]).2 0 0).2 0
      ([104, 101, 108, 108, 111] : List Nat).length).1 =
      some [104, 101, 108, 108, 111] :=
  c1_write_read_roundtrip eg1 [strA, strB] [104, 101, 108, 108, 111] eg2 eg3 0
    rfl rfl (by decide)
